import Mathlib

/-!
Verification of the Learning Pathway Service core against its design notes.

This file gives a shallow embedding of the pathway-recommendation engine:
the in-memory graph store (`src/database/memory.ts`), the path finder
(Dijkstra over inverse-strength weights), the pathway assembler
(`src/services/pathway.ts`) and the resource aggregation/ranking pipeline
(`src/services/resource-fetcher.ts`).

Modelling conventions, applied throughout:
* JavaScript numbers are modelled as exact rationals (`ℚ`).  All numeric
  literals in the source are small decimal fractions and the observable
  comparisons do not depend on binary floating-point rounding.
* JavaScript `Map`/`Set` iteration order is insertion order; both are
  modelled as lists in insertion order, with `Set`-deduplication made
  explicit at the insertion points.
* The defaulting idiom `x || d` is modelled by testing for the falsy value
  (`0` for numbers, `""` for strings); an absent (`undefined`) field and a
  stored falsy value behave identically under `||`, so optional
  numeric/string fields are modelled as plain fields with the falsy value
  standing for "absent".
* Unbounded `while` loops are modelled by fuelled recursion with fuel
  bounds that the loop can provably never exhaust on the states reachable
  in the program (each Dijkstra iteration removes one unvisited node).
-/

namespace PathwaySvc

/- Batteries marks the arithmetic on `Rat` `@[irreducible]`; restore
reduction locally so that concrete program runs can be evaluated by
`decide`. -/
attribute [local semireducible] Rat.add Rat.mul Rat.inv Rat.sub Rat.ofScientific

deriving instance DecidableEq for Except

/-- Node kind tag, the TS union `'skill' | 'role'`. -/
inductive NodeType where
  | skill
  | role
deriving DecidableEq, Repr

/-- `Skill` record from `src/types.ts`. -/
structure Skill where
  name : String
  category : String
  difficulty : String
  estimatedHours : ℚ
deriving DecidableEq, Repr

/-- `Role` record from `src/types.ts`. -/
structure Role where
  name : String
  category : String
  demand : String
  avgSalary : ℚ
  description : String
deriving DecidableEq, Repr

/-- The dynamic `properties` bag of a graph node: a `Skill` object for
skill nodes and a `Role` object for role nodes (this is how
`addSkill`/`addRole` populate it). -/
inductive NodeProps where
  | skillProps (s : Skill)
  | roleProps (r : Role)
deriving DecidableEq, Repr

/-- `properties.name`: present on both skill and role property bags. -/
def NodeProps.name : NodeProps → String
  | .skillProps s => s.name
  | .roleProps r => r.name

/-- `properties.category`: present on both property bags. -/
def NodeProps.category : NodeProps → String
  | .skillProps s => s.category
  | .roleProps r => r.category

/-- `properties.difficulty`: a real field on skill bags; reading it on a
role bag yields `undefined` in JS, modelled as `""` (it is only consulted
for skill nodes, and `estimateHours` maps any unknown string to the same
default as `undefined`). -/
def NodeProps.difficulty : NodeProps → String
  | .skillProps s => s.difficulty
  | .roleProps _ => ""

/-- `GraphNode` from `src/types.ts`. -/
structure GraphNode where
  id : String
  type : NodeType
  properties : NodeProps
deriving DecidableEq, Repr

/-- `Relationship` from `src/types.ts`: a `type` tag and a dynamic
properties bag, of which the code reads `strength` (number, possibly
absent: absent and `0` both fall to the `|| 0.5` default, so `0` models
"absent"), `priority` and `effort` (strings, `""` for absent). -/
structure Relationship where
  type : String
  strength : ℚ
  priority : String := ""
  effort : String := ""
deriving DecidableEq, Repr

/-- `PathResult` from `src/types.ts`. -/
structure PathResult where
  path : List GraphNode
  skillGaps : List Skill
  confidence : ℚ
deriving DecidableEq, Repr

/-- The private state of `InMemoryGraphDatabase`:
`nodes : Map<string, GraphNode>`, `edges : Map<string, Set<string>>`,
`relationships : Map<string, Relationship[]>`, each in insertion order. -/
structure GraphState where
  nodes : List GraphNode
  edges : List (String × List String)
  relationships : List (String × List Relationship)
deriving DecidableEq, Repr

/-- The empty database (state after construction / `disconnect`). -/
def emptyGraph : GraphState := ⟨[], [], []⟩

/-- `Map.set` on the node map: replace in place if the key exists
(JS `Map` keeps the original insertion position), else append. -/
def setNode : List GraphNode → GraphNode → List GraphNode
  | [], n => [n]
  | m :: rest, n => if m.id = n.id then n :: rest else m :: setNode rest n

/-- `Map.get` on the node map (`this.nodes.get(nodeId)`). -/
def getNode (g : GraphState) (id : String) : Option GraphNode :=
  g.nodes.find? (fun n => n.id = id)

/-- The node ids in insertion order (`this.nodes.keys()`). -/
def nodeIds (g : GraphState) : List String :=
  g.nodes.map (·.id)

/-- `s.toLowerCase()`, character by character (the service only
lowercases ASCII names and URLs). -/
def strToLower (s : String) : String :=
  ⟨s.toList.map Char.toLower⟩

/-- `s.startsWith(p)` on character lists. -/
def startsWithL (s p : String) : Bool :=
  p.toList.isPrefixOf s.toList

/-- One maximal whitespace run becomes a single `'-'`: the
`replace(/\s+/g, '-')` regex on a character list, tracking whether the
previous character was whitespace (the run's first whitespace emits the
dash, the rest of the run emits nothing). -/
def collapseWsAux : Bool → List Char → List Char
  | _, [] => []
  | prevWs, c :: rest =>
    if c.isWhitespace then
      if prevWs then collapseWsAux true rest
      else '-' :: collapseWsAux true rest
    else c :: collapseWsAux false rest

/-- `replace(/\s+/g, '-')` on a character list. -/
def collapseWs (l : List Char) : List Char := collapseWsAux false l

/-- `name.toLowerCase().replace(/\s+/g, '-')`, the id slug used by
`addSkill`/`addRole` and `generateMilestones`. -/
def slugify (name : String) : String :=
  ⟨collapseWs (strToLower name).toList⟩

/-- `InMemoryGraphDatabase.addSkill`. -/
def addSkill (g : GraphState) (skill : Skill) : GraphState :=
  let id := "skill-" ++ slugify skill.name
  { g with nodes := setNode g.nodes ⟨id, .skill, .skillProps skill⟩ }

/-- `InMemoryGraphDatabase.addRole`. -/
def addRole (g : GraphState) (role : Role) : GraphState :=
  let id := "role-" ++ slugify role.name
  { g with nodes := setNode g.nodes ⟨id, .role, .roleProps role⟩ }

/-- Add `to` to the outgoing-edge `Set` of `from` (JS `Set.add`:
no duplicates, insertion order preserved). -/
def addEdge : List (String × List String) → String → String → List (String × List String)
  | [], from_, to_ => [(from_, [to_])]
  | (k, ts) :: rest, from_, to_ =>
    if k = from_ then (k, if to_ ∈ ts then ts else ts ++ [to_]) :: rest
    else (k, ts) :: addEdge rest from_ to_

/-- Append a relationship under the key `` `${from}-${to}` ``. -/
def addRel : List (String × List Relationship) → String → Relationship →
    List (String × List Relationship)
  | [], key, r => [(key, [r])]
  | (k, rs) :: rest, key, r =>
    if k = key then (k, rs ++ [r]) :: rest
    else (k, rs) :: addRel rest key r

/-- `InMemoryGraphDatabase.createRelationship`: records the edge and
appends the relationship under the key `` `${from}-${to}` ``.  The source
performs no validation of any kind — no endpoint-existence check and no
strength check — and cannot fail. -/
def createRelationship (g : GraphState) (from_ to_ : String) (rel : Relationship) :
    GraphState :=
  { g with
    edges := addEdge g.edges from_ to_
    relationships := addRel g.relationships (from_ ++ "-" ++ to_) rel }

/-- The relationship list stored for the ordered pair, i.e.
`this.relationships.get(`${from}-${to}`) || []`. -/
def relsOf (g : GraphState) (from_ to_ : String) : List Relationship :=
  ((g.relationships.find? (fun e => e.1 = from_ ++ "-" ++ to_)).map (·.2)).getD []

/-- The outgoing-edge set of a node, `this.edges.get(nodeId) || new Set()`. -/
def edgesOf (g : GraphState) (from_ : String) : List String :=
  ((g.edges.find? (fun e => e.1 = from_)).map (·.2)).getD []

/-- `InMemoryGraphDatabase.getEdgeWeight`: `1 / strength` of the **first**
stored relationship for the pair (`relationships[0]`), with the
`|| 0.5` default applied to a falsy strength, or `1` when the pair has no
relationships. -/
def getEdgeWeight (g : GraphState) (from_ to_ : String) : ℚ :=
  match relsOf g from_ to_ with
  | [] => 1
  | r :: _ => 1 / (if r.strength = 0 then 0.5 else r.strength)

/-- The per-edge strength used by `calculatePathConfidence`:
`relationships[0]?.properties.strength || 0.5`. -/
def edgeStrength (g : GraphState) (from_ to_ : String) : ℚ :=
  match relsOf g from_ to_ with
  | [] => 0.5
  | r :: _ => if r.strength = 0 then 0.5 else r.strength

/-- Sum of `edgeStrength` over consecutive pairs of a path. -/
def strengthSum (g : GraphState) : List String → ℚ
  | a :: b :: rest => edgeStrength g a b + strengthSum g (b :: rest)
  | _ => 0

/-- Sum of `getEdgeWeight` over consecutive pairs of a path (the total
Dijkstra cost of the path). -/
def pathWeight (g : GraphState) : List String → ℚ
  | a :: b :: rest => getEdgeWeight g a b + pathWeight g (b :: rest)
  | _ => 0

/-- `InMemoryGraphDatabase.calculatePathConfidence`: `1` for paths of at
most one node, otherwise the mean of the per-edge strengths. -/
def calculatePathConfidence (g : GraphState) (path : List String) : ℚ :=
  if path.length ≤ 1 then 1
  else strengthSum g path / ((path.length : ℚ) - 1)

/-- `InMemoryGraphDatabase.findNode`: first node (in insertion order)
with the given type whose `properties.name` matches exactly. -/
def findNode (g : GraphState) (name : String) (ty : NodeType) : Option GraphNode :=
  g.nodes.find? (fun n => n.type = ty ∧ n.properties.name = name)

/-- `InMemoryGraphDatabase.estimateHours`: fixed difficulty→hours lookup
with default 20. -/
def estimateHours (difficulty : String) : ℚ :=
  if difficulty = "beginner" then 15
  else if difficulty = "intermediate" then 25
  else if difficulty = "advanced" then 40
  else 20

/-! ### Dijkstra (`InMemoryGraphDatabase.dijkstra`)

The JS implementation keeps `distances : Map<string, number>` (with
`Infinity` for unreached nodes, modelled as `WithTop ℚ`), a `previous`
pointer map and an `unvisited` set.  Each loop iteration scans `unvisited`
for the first node attaining the minimum distance (the scan updates on a
strict `<`, so the first of several equal minima wins), removes it, stops
when it is the target (reconstructing the path through `previous`), and
otherwise relaxes its outgoing edges towards still-unvisited nodes.

The `while` loops are modelled with fuel; the main loop removes one
unvisited node per iteration so `unvisited.length` fuel is never
exhausted, and `previous` chains have strictly decreasing distances under
positive weights so `|nodes|` fuel suffices for reconstruction (on a
cyclic `previous` map the JS loop would not terminate at all). -/

/-- The minimum scan of one loop iteration: first strict improvement wins,
starting from `(null, Infinity)`. -/
def selectMin (dist : String → WithTop ℚ) (unvisited : List String) :
    Option String × WithTop ℚ :=
  unvisited.foldl (fun acc v => if dist v < acc.2 then (some v, dist v) else acc) (none, ⊤)

/-- One neighbor relaxation: if the neighbor is still unvisited, compare
`minDistance + edgeWeight` with its current distance and update distance
and predecessor on strict improvement. -/
def relaxStep (g : GraphState) (current : String) (md : WithTop ℚ)
    (unvisited : List String)
    (dp : (String → WithTop ℚ) × (String → Option String)) (nb : String) :
    (String → WithTop ℚ) × (String → Option String) :=
  if nb ∈ unvisited then
    if md + ((getEdgeWeight g current nb : ℚ) : WithTop ℚ) < dp.1 nb then
      (fun v => if v = nb then md + ((getEdgeWeight g current nb : ℚ) : WithTop ℚ)
                else dp.1 v,
       fun v => if v = nb then some current else dp.2 v)
    else dp
  else dp

/-- The neighbor-relaxation loop of one iteration. -/
def relaxAll (g : GraphState) (current : String) (md : WithTop ℚ)
    (neighbors unvisited : List String)
    (dp : (String → WithTop ℚ) × (String → Option String)) :
    (String → WithTop ℚ) × (String → Option String) :=
  neighbors.foldl (relaxStep g current md unvisited) dp

/-- Path reconstruction at the target: repeatedly prepend and follow the
`previous` pointer until it is `null`. -/
def reconstructPath (prev : String → Option String) : Nat → String → List String
  | 0, cur => [cur]
  | fuel + 1, cur =>
    match prev cur with
    | none => [cur]
    | some p => reconstructPath prev fuel p ++ [cur]

/-- The main Dijkstra loop.  Returns the reconstructed path when the
target is extracted, `[]` when the unvisited set is exhausted or only
unreachable (infinite-distance) nodes remain. -/
def dijkstraLoop (g : GraphState) (endId : String) :
    Nat → List String → (String → WithTop ℚ) → (String → Option String) → Nat →
    List String
  | 0, _, _, _, _ => []
  | _ + 1, [], _, _, _ => []
  | fuel + 1, u@(_ :: _), dist, prev, reconFuel =>
    match selectMin dist u with
    | (none, _) => []
    | (some current, md) =>
      if md = ⊤ then []
      else
        let u' := u.erase current
        if current = endId then reconstructPath prev reconFuel endId
        else
          let dp := relaxAll g current md (edgesOf g current) u' (dist, prev)
          dijkstraLoop g endId fuel u' dp.1 dp.2 reconFuel

/-- `InMemoryGraphDatabase.dijkstra(startId, endId)`: distances start at
`0` for the start node and `Infinity` elsewhere. -/
def dijkstra (g : GraphState) (startId endId : String) : List String :=
  let ids := nodeIds g
  dijkstraLoop g endId ids.length ids
    (fun v => if v = startId then ((0 : ℚ) : WithTop ℚ) else ⊤)
    (fun _ => none) ids.length

/-! ### `InMemoryGraphDatabase.findShortestPath` -/

/-- `Map.get` with the non-null assertion `this.nodes.get(nodeId)!`:
the ids in a Dijkstra path are node keys, so the lookup succeeds; the
default is never reached on program states. -/
def getNodeD (g : GraphState) (id : String) : GraphNode :=
  (getNode g id).getD ⟨id, .skill, .skillProps ⟨"", "", "", 0⟩⟩

/-- Skill-gap extraction from a winning path: skill-kind nodes whose name
is not among the caller's skills, in path order, mapped through
`estimateHours`. -/
def extractGaps (fromSkills : List String) (bestPath : List GraphNode) : List Skill :=
  (bestPath.filter
    (fun n => n.type = NodeType.skill ∧ n.properties.name ∉ fromSkills)).map
    (fun n =>
      { name := n.properties.name
        category := n.properties.category
        difficulty := n.properties.difficulty
        estimatedHours := estimateHours n.properties.difficulty })

/-- Accumulator of the per-skill loop in `findShortestPath`. -/
structure FoldState where
  bestPath : List GraphNode
  skillGaps : List Skill
  maxConfidence : ℚ
deriving DecidableEq, Repr

/-- One iteration of the per-skill loop: resolve the skill name, run
Dijkstra from its node, and keep the path on a strict confidence
improvement. -/
def considerSkill (g : GraphState) (fromSkills : List String) (targetId : String)
    (st : FoldState) (skillName : String) : FoldState :=
  match findNode g skillName .skill with
  | none => st
  | some skillNode =>
    let path := dijkstra g skillNode.id targetId
    if path.length > 0 then
      let pathConfidence := calculatePathConfidence g path
      if pathConfidence > st.maxConfidence then
        let bestPath := path.map (getNodeD g)
        { bestPath := bestPath
          skillGaps := extractGaps fromSkills bestPath
          maxConfidence := pathConfidence }
      else st
    else st

/-- The candidate Dijkstra paths of a call, one per known skill that
resolves to a skill node, in input order. -/
def candidatePaths (g : GraphState) (fromSkills : List String) (targetId : String) :
    List (List String) :=
  fromSkills.filterMap
    (fun s => (findNode g s .skill).map (fun sn => dijkstra g sn.id targetId))


/-- `InMemoryGraphDatabase.getRequiredSkillsForRole`: the hardcoded
role → required-skills fallback table (`roleSkillMap[roleName] || []`). -/
def getRequiredSkillsForRole (roleName : String) : List Skill :=
  if roleName = "AI-Enhanced Customer Experience Specialist" then
    [⟨"AI-Powered Customer Analytics", "Analytics", "beginner", 25⟩,
     ⟨"Conversational AI Management", "AI", "intermediate", 30⟩,
     ⟨"Customer Journey Automation", "Technology", "intermediate", 35⟩]
  else if roleName = "AI-Enhanced Administrative Coordinator" then
    [⟨"Workflow Automation Tools", "Technology", "beginner", 20⟩,
     ⟨"AI-Assisted Scheduling", "AI", "beginner", 15⟩,
     ⟨"Document Intelligence Systems", "Technology", "intermediate", 25⟩]
  else if roleName = "AI-Enhanced Financial Services Advisor" then
    [⟨"FinTech AI Applications", "Finance", "intermediate", 40⟩,
     ⟨"Robo-Advisory Platforms", "Finance", "intermediate", 30⟩,
     ⟨"Financial Risk AI Analysis", "Analytics", "advanced", 45⟩]
  else if roleName = "AI-Enhanced Healthcare Information Manager" then
    [⟨"Healthcare AI Systems", "Healthcare", "intermediate", 35⟩,
     ⟨"Medical Data Analytics", "Analytics", "intermediate", 40⟩,
     ⟨"Health Information Automation", "Technology", "intermediate", 30⟩]
  else if roleName = "AI-Enhanced Retail Operations Manager" then
    [⟨"Inventory Optimization AI", "Operations", "intermediate", 35⟩,
     ⟨"Customer Behavior Analytics", "Analytics", "beginner", 30⟩,
     ⟨"Retail Automation Systems", "Technology", "intermediate", 40⟩]
  else if roleName = "AI-Enhanced Human Resources Specialist" then
    [⟨"AI Recruitment Tools", "HR", "beginner", 25⟩,
     ⟨"People Analytics", "Analytics", "intermediate", 35⟩,
     ⟨"Employee Experience AI", "HR", "intermediate", 30⟩]
  else if roleName = "AI-Enhanced Marketing Communications Manager" then
    [⟨"AI Content Generation", "Marketing", "beginner", 20⟩,
     ⟨"Marketing Automation Platforms", "Technology", "intermediate", 35⟩,
     ⟨"Campaign Performance AI", "Analytics", "intermediate", 30⟩]
  else if roleName = "AI-Enhanced Operations Analyst" then
    [⟨"Process Mining and AI", "Operations", "intermediate", 40⟩,
     ⟨"Predictive Operations Analytics", "Analytics", "advanced", 45⟩,
     ⟨"Business Intelligence AI", "Analytics", "intermediate", 35⟩]
  else if roleName = "AI-Enhanced Quality Assurance Coordinator" then
    [⟨"Automated Testing with AI", "Quality", "intermediate", 35⟩,
     ⟨"Quality Analytics and Prediction", "Analytics", "intermediate", 30⟩,
     ⟨"AI-Driven Process Improvement", "Operations", "intermediate", 40⟩]
  else if roleName = "AI-Enhanced Business Intelligence Analyst" then
    [⟨"Advanced AI Analytics", "Analytics", "advanced", 50⟩,
     ⟨"Machine Learning for Business", "AI", "intermediate", 45⟩,
     ⟨"Data Storytelling with AI", "Analytics", "intermediate", 30⟩]
  else if roleName = "AI-Enhanced Content Strategy Manager" then
    [⟨"AI Content Planning", "Content", "beginner", 25⟩,
     ⟨"Content Performance AI", "Analytics", "intermediate", 30⟩,
     ⟨"SEO and AI Optimization", "Marketing", "intermediate", 35⟩]
  else if roleName = "AI-Enhanced Sales Development Representative" then
    [⟨"Sales AI and CRM", "Sales", "beginner", 25⟩,
     ⟨"Lead Scoring with AI", "Sales", "intermediate", 30⟩,
     ⟨"Sales Forecasting AI", "Analytics", "intermediate", 35⟩]
  else if roleName = "AI-Enhanced Process Improvement Specialist" then
    [⟨"Process Automation Design", "Operations", "intermediate", 40⟩,
     ⟨"AI-Driven Efficiency Analysis", "Analytics", "intermediate", 35⟩,
     ⟨"Change Management with AI", "Management", "intermediate", 30⟩]
  else if roleName = "AI-Enhanced Training and Development Coordinator" then
    [⟨"AI-Powered Learning Platforms", "Education", "beginner", 25⟩,
     ⟨"Learning Analytics", "Analytics", "intermediate", 30⟩,
     ⟨"Personalized Learning AI", "Education", "intermediate", 35⟩]
  else if roleName = "AI-Enhanced Compliance and Risk Analyst" then
    [⟨"RegTech and AI Compliance", "Compliance", "intermediate", 40⟩,
     ⟨"Risk Prediction AI", "Analytics", "advanced", 45⟩,
     ⟨"Automated Compliance Monitoring", "Technology", "intermediate", 35⟩]
  else if roleName = "AI-Enhanced Event Coordination Manager" then
    [⟨"Event Planning AI Tools", "Events", "beginner", 20⟩,
     ⟨"Attendee Experience Analytics", "Analytics", "beginner", 25⟩,
     ⟨"Virtual Event Technology", "Technology", "intermediate", 30⟩]
  else if roleName = "AI-Enhanced Research and Insights Analyst" then
    [⟨"AI Research Methodologies", "Research", "intermediate", 35⟩,
     ⟨"Data Mining with AI", "Analytics", "advanced", 40⟩,
     ⟨"Insight Generation AI", "Analytics", "intermediate", 35⟩]
  else if roleName = "AI-Enhanced Digital Marketing Specialist" then
    [⟨"Digital Marketing AI Tools", "Marketing", "beginner", 25⟩,
     ⟨"Programmatic Advertising", "Marketing", "intermediate", 35⟩,
     ⟨"Marketing Attribution AI", "Analytics", "intermediate", 30⟩]
  else if roleName = "AI-Enhanced Supply Chain Coordinator" then
    [⟨"Supply Chain AI Optimization", "Operations", "intermediate", 40⟩,
     ⟨"Demand Forecasting AI", "Analytics", "intermediate", 35⟩,
     ⟨"Logistics Automation", "Technology", "intermediate", 30⟩]
  else if roleName = "AI-Enhanced Customer Success Manager" then
    [⟨"Customer Health Scoring AI", "Customer Success", "beginner", 25⟩,
     ⟨"Churn Prediction Models", "Analytics", "intermediate", 35⟩,
     ⟨"Customer Lifecycle Automation", "Technology", "intermediate", 30⟩]
  else []

/-- `InMemoryGraphDatabase.findShortestPath`.  Throws
`` `Role "${toRole}" not found` `` when the target role does not resolve;
otherwise loops over the known skills keeping the candidate path of
maximal confidence, and falls back to the static required-skills table
with confidence `0.6` when no candidate was kept.  The skill-gap list is
truncated to 3 in the returned result. -/
def findShortestPath (g : GraphState) (fromSkills : List String) (toRole : String) :
    Except String PathResult :=
  match findNode g toRole .role with
  | none => .error ("Role \"" ++ toRole ++ "\" not found")
  | some targetNode =>
    let st := fromSkills.foldl (considerSkill g fromSkills targetNode.id) ⟨[], [], 0⟩
    if st.bestPath.length = 0 then
      .ok { path := []
            skillGaps := (getRequiredSkillsForRole toRole).take 3
            confidence := 0.6 }
    else
      .ok { path := st.bestPath
            skillGaps := st.skillGaps.take 3
            confidence := st.maxConfidence }

/-- `InMemoryGraphDatabase.getRoleAlternatives`: roles of the same
category as the resolved role (excluding itself), in node insertion
order, truncated to 3. -/
def getRoleAlternativesRaw (g : GraphState) (roleName : String) : List (String × String) :=
  match findNode g roleName .role with
  | none => []
  | some roleNode =>
    ((g.nodes.filter
      (fun n => n.type = NodeType.role ∧
        n.properties.category = roleNode.properties.category ∧
        n.properties.name ≠ roleName)).map
      (fun n => (n.properties.name, n.properties.category))).take 3

/-! ### `InMemoryGraphDatabase.seedData`

The seeded database: 7 skills, 20 roles, and 8 relationships.  Note that
the relationship endpoints `role-ai-enhanced-project-manager` and
`role-ai-enhanced-data-analyst` are node ids that the seed never creates
(no `addRole` call produces them), so these edges dangle. -/

/-- The seeded skills, in insertion order. -/
def seedSkills : List Skill :=
  [⟨"Project Management", "Management", "intermediate", 0⟩,
   ⟨"Data Analysis", "Analytics", "intermediate", 0⟩,
   ⟨"AI Tools Proficiency", "Technology", "beginner", 20⟩,
   ⟨"Prompt Engineering", "AI", "beginner", 15⟩,
   ⟨"Process Automation", "Technology", "intermediate", 25⟩,
   ⟨"Machine Learning Basics", "Analytics", "intermediate", 30⟩,
   ⟨"Data Visualization with AI", "Analytics", "intermediate", 25⟩]

/-- The seeded roles, in insertion order. -/
def seedRoles : List Role :=
  [⟨"AI-Enhanced Customer Experience Specialist", "Customer Service", "high", 68000,
    "Customer service professionals who use AI analytics and automation to enhance customer experiences"⟩,
   ⟨"AI-Enhanced Administrative Coordinator", "Administration", "high", 55000,
    "Administrative professionals who leverage AI for workflow automation and intelligent document management"⟩,
   ⟨"AI-Enhanced Financial Services Advisor", "Finance", "high", 78000,
    "Financial advisors who integrate AI-powered analytics and robo-advisory tools in client service"⟩,
   ⟨"AI-Enhanced Healthcare Information Manager", "Healthcare", "high", 72000,
    "Healthcare information professionals using AI for medical data analysis and workflow optimization"⟩,
   ⟨"AI-Enhanced Retail Operations Manager", "Retail", "high", 65000,
    "Retail managers who use AI for inventory optimization, customer behavior analysis, and operations"⟩,
   ⟨"AI-Enhanced Human Resources Specialist", "Human Resources", "high", 70000,
    "HR professionals who leverage AI recruitment tools, people analytics, and employee experience AI"⟩,
   ⟨"AI-Enhanced Marketing Communications Manager", "Marketing", "high", 75000,
    "Marketing professionals who use AI content generation, automation platforms, and performance analytics"⟩,
   ⟨"AI-Enhanced Operations Analyst", "Operations", "high", 82000,
    "Operations analysts who apply AI for process mining, predictive analytics, and business intelligence"⟩,
   ⟨"AI-Enhanced Quality Assurance Coordinator", "Quality", "high", 68000,
    "QA professionals who implement AI-driven testing, quality analytics, and process improvement"⟩,
   ⟨"AI-Enhanced Business Intelligence Analyst", "Analytics", "high", 88000,
    "BI analysts who use advanced AI analytics, machine learning, and automated data storytelling"⟩,
   ⟨"AI-Enhanced Content Strategy Manager", "Content", "high", 72000,
    "Content managers who leverage AI for content planning, performance analysis, and SEO optimization"⟩,
   ⟨"AI-Enhanced Sales Development Representative", "Sales", "high", 62000,
    "Sales professionals who use AI-powered CRM, lead scoring, and sales forecasting tools"⟩,
   ⟨"AI-Enhanced Process Improvement Specialist", "Operations", "high", 78000,
    "Process improvement experts who design automation and use AI for efficiency analysis and change management"⟩,
   ⟨"AI-Enhanced Training and Development Coordinator", "Education", "medium", 65000,
    "Training coordinators who use AI-powered learning platforms, analytics, and personalized learning systems"⟩,
   ⟨"AI-Enhanced Compliance and Risk Analyst", "Compliance", "high", 85000,
    "Compliance professionals who leverage RegTech AI, risk prediction models, and automated monitoring"⟩,
   ⟨"AI-Enhanced Event Coordination Manager", "Events", "medium", 58000,
    "Event coordinators who use AI planning tools, attendee analytics, and virtual event technology"⟩,
   ⟨"AI-Enhanced Research and Insights Analyst", "Research", "high", 75000,
    "Research analysts who apply AI methodologies, data mining, and automated insight generation"⟩,
   ⟨"AI-Enhanced Digital Marketing Specialist", "Marketing", "high", 68000,
    "Digital marketers who use AI tools, programmatic advertising, and marketing attribution systems"⟩,
   ⟨"AI-Enhanced Supply Chain Coordinator", "Operations", "high", 70000,
    "Supply chain professionals who optimize operations with AI, demand forecasting, and logistics automation"⟩,
   ⟨"AI-Enhanced Customer Success Manager", "Customer Success", "high", 80000,
    "Customer success managers who use AI health scoring, churn prediction, and lifecycle automation"⟩]

/-- The seeded relationships, as `(fromId, toId, relationship)` triples
in creation order.  The role ids referenced here are never created as
nodes by the seed. -/
def seedRels : List (String × String × Relationship) :=
  [("skill-project-management", "role-ai-enhanced-project-manager",
    { type := "LEADS_TO", strength := 0.8, effort := "low" }),
   ("skill-data-analysis", "role-ai-enhanced-data-analyst",
    { type := "LEADS_TO", strength := 0.8, effort := "low" }),
   ("skill-ai-tools-proficiency", "role-ai-enhanced-project-manager",
    { type := "REQUIRED_FOR", strength := 0.9, priority := "core" }),
   ("skill-prompt-engineering", "role-ai-enhanced-project-manager",
    { type := "REQUIRED_FOR", strength := 0.8, priority := "core" }),
   ("skill-process-automation", "role-ai-enhanced-project-manager",
    { type := "REQUIRED_FOR", strength := 0.6, priority := "complementary" }),
   ("skill-ai-tools-proficiency", "role-ai-enhanced-data-analyst",
    { type := "REQUIRED_FOR", strength := 0.9, priority := "core" }),
   ("skill-machine-learning-basics", "role-ai-enhanced-data-analyst",
    { type := "REQUIRED_FOR", strength := 0.8, priority := "core" }),
   ("skill-data-visualization-with-ai", "role-ai-enhanced-data-analyst",
    { type := "REQUIRED_FOR", strength := 0.7, priority := "complementary" })]

/-- `InMemoryGraphDatabase.seedData` applied to the empty database:
the state reached by `connect()`. -/
def seedGraph : GraphState :=
  let g1 := seedSkills.foldl addSkill emptyGraph
  let g2 := seedRoles.foldl addRole g1
  seedRels.foldl (fun g e => createRelationship g e.1 e.2.1 e.2.2) g2

/-! ### `PathwayService` (`src/services/pathway.ts`) -/

/-- The TS union `'free' | 'paid'`. -/
inductive Cost where
  | free
  | paid
deriving DecidableEq, Repr

/-- The TS union `'core' | 'complementary'`. -/
inductive Priority where
  | core
  | complementary
deriving DecidableEq, Repr

/-- `LearningResource` from `src/types.ts` (the `type` union is kept as a
string tag; `description` is optional, `""` for absent). -/
structure LearningResource where
  title : String
  provider : String
  url : String
  type : String
  duration : String
  cost : Cost
  rating : ℚ
  verified : Bool
  description : String := ""
deriving DecidableEq, Repr

/-- `Milestone` from `src/types.ts`. -/
structure Milestone where
  id : String
  description : String
  estimatedHours : ℚ
deriving DecidableEq, Repr

/-- `Alternative` from `src/types.ts` (`role`/`skill` optional, `""` for
absent). -/
structure Alternative where
  role : String := ""
  skill : String := ""
  reason : String
  confidence : ℚ
deriving DecidableEq, Repr

/-- `SkillGap` from `src/types.ts` (the enriched response shape). -/
structure SkillGap where
  skill : String
  priority : Priority
  difficulty : String
  estimatedHours : ℚ
  resources : List LearningResource
  milestones : List Milestone
deriving DecidableEq, Repr

/-- `PathwayRequest` (the fields the engine reads). -/
structure PathwayRequest where
  skills : List String
  role : String
deriving DecidableEq, Repr

/-- The `pathway` object of `PathwayResponse`. -/
structure Pathway where
  targetRole : String
  currentSkills : List String
  skillGaps : List SkillGap
  estimatedTime : String
  confidenceScore : ℚ
  alternatives : List Alternative
deriving DecidableEq, Repr

/-- `PathwayResponse`. -/
structure PathwayResponse where
  success : Bool
  pathway : Pathway
  encouragement : String
deriving DecidableEq, Repr

/-- The per-skill milestone template table of
`PathwayService.generateMilestones`, with the 4-step generic fallback. -/
def milestoneTemplates (skillName : String) : List String :=
  if skillName = "AI Tools Proficiency" then
    ["Complete introduction to AI concepts",
     "Practice with ChatGPT for work tasks",
     "Create AI-assisted project plan",
     "Integrate AI tools into daily workflow"]
  else if skillName = "Prompt Engineering" then
    ["Learn basic prompt structure",
     "Write effective prompts for different scenarios",
     "Develop project-specific prompt templates",
     "Master advanced prompting techniques"]
  else if skillName = "Process Automation" then
    ["Set up basic automation workflow",
     "Automate routine reporting tasks",
     "Create complex multi-step automations",
     "Implement error handling and monitoring"]
  else if skillName = "Machine Learning Basics" then
    ["Understand core ML concepts",
     "Practice with no-code ML tools",
     "Apply ML to business problems",
     "Evaluate and improve models"]
  else if skillName = "Data Visualization with AI" then
    ["Learn AI-powered visualization tools",
     "Create automated dashboard",
     "Build predictive visualizations",
     "Present insights to stakeholders"]
  else
    ["Complete foundational learning",
     "Apply knowledge to real scenarios",
     "Build practical project",
     "Achieve proficiency level"]

/-- `PathwayService.generateMilestones`: at least 2 and at most 4
milestones (roughly one per 8 hours), hours split as
`ceil(totalHours / milestoneCount)`. -/
def generateMilestones (skillName : String) (totalHours : ℚ) : List Milestone :=
  let baseMilestones : ℤ := max 2 ⌈totalHours / 8⌉
  let count : Nat := (min baseMilestones 4).toNat
  ((milestoneTemplates skillName).take count).enum.map
    (fun e =>
      { id := slugify skillName ++ "-" ++ toString (e.1 + 1)
        description := e.2
        estimatedHours := ((⌈totalHours / (count : ℚ)⌉ : ℤ) : ℚ) })

/-- `PathwayService.calculateEstimatedTime`: summed gap hours at 10 hours
per week, rendered as weeks (rounded up to multiples of 4 beyond 4) or
months beyond 8 weeks. -/
def calculateEstimatedTime (skillGaps : List SkillGap) : String :=
  let totalHours : ℚ := (skillGaps.map (·.estimatedHours)).sum
  let weeks : ℤ := ⌈totalHours / 10⌉
  if weeks ≤ 4 then toString weeks ++ " weeks"
  else if weeks ≤ 8 then toString (⌈(weeks : ℚ) / 4⌉ * 4) ++ " weeks"
  else toString (⌈(weeks : ℚ) / 4⌉ : ℤ) ++ " months"

/-- `PathwayService.generateEncouragement`: first matching rule of the
gap-count rule table, with the (unreachable) generic fallback. -/
def generateEncouragement (currentSkills : List String) (skillGaps : List SkillGap) :
    String :=
  let strengths := currentSkills.length
  let gaps := skillGaps.length
  if gaps = 0 then
    "🎉 Amazing! You already have all the skills needed for this role. You're ready to make the transition!"
  else if gaps = 1 then
    "🎉 You're almost there! With your " ++ toString strengths ++
      " existing skills, you only need to develop " ++ toString gaps ++
      " more area to reach your goal."
  else if gaps = 2 then
    "🚀 Great foundation! Your " ++ toString strengths ++
      " skills give you a strong starting point. Just " ++ toString gaps ++
      " more skills to master."
  else if gaps ≥ 3 then
    "💪 Solid base to build from! Your " ++ toString strengths ++
      " existing skills show you're ready for this challenge. The " ++ toString gaps ++
      " new skills ahead are totally achievable."
  else
    "🌟 Every expert was once a beginner. You've got this!"

/-- The enrichment of one path-finder skill gap inside
`PathwayService.generatePathway`: resources come from the graph
database's (network-backed) `getSkillResources`, abstracted here as the
`fetch` oracle; the `priority` field is the constant `'core'`. -/
def enrichGap (fetch : String → List LearningResource) (skillGap : Skill) : SkillGap :=
  { skill := skillGap.name
    priority := .core
    difficulty := skillGap.difficulty
    estimatedHours := skillGap.estimatedHours
    resources := (fetch skillGap.name).take 3
    milestones := generateMilestones skillGap.name skillGap.estimatedHours }

/-- `InMemoryGraphDatabase.getRoleAlternatives` packaged as
`Alternative` values. -/
def getRoleAlternatives (g : GraphState) (roleName : String) : List Alternative :=
  (getRoleAlternativesRaw g roleName).map
    (fun e =>
      { role := e.1
        reason := "Similar " ++ strToLower e.2 ++ " role"
        confidence := 0.8 })

/-- `PathwayService.generatePathway`: orchestrates the path finder and
the per-gap enrichment; any internal failure is caught and surfaced as
the single generic message. -/
def generatePathway (g : GraphState) (fetch : String → List LearningResource)
    (request : PathwayRequest) : Except String PathwayResponse :=
  match findShortestPath g request.skills request.role with
  | .error _ => .error "Unable to generate learning pathway"
  | .ok pathResult =>
    let enrichedSkillGaps := pathResult.skillGaps.map (enrichGap fetch)
    .ok
      { success := true
        pathway :=
          { targetRole := request.role
            currentSkills := request.skills
            skillGaps := enrichedSkillGaps
            estimatedTime := calculateEstimatedTime enrichedSkillGaps
            confidenceScore := pathResult.confidence
            alternatives := (getRoleAlternatives g request.role).take 3 }
        encouragement := generateEncouragement request.skills enrichedSkillGaps }

/-! ### `EnhancedResourceFetcher` (`src/services/resource-fetcher.ts`)

The three discovery strategies (Grok search, provider-targeted URL
synthesis, aggregator-site synthesis) and the curated table reach the
network or are pure data; the deterministic merge/validate/rank pipeline
downstream of them is embedded here with the strategy outputs as
parameters.  The WHATWG `URL` platform parser used by `isValidUrl` and
`extractProvider` is modelled as: an `http(s)://` scheme followed by a
nonempty host, the host being the text between the scheme and the first
`/`, `?`, `#` or `:`. -/

/-- The raw `SearchResult` shape produced by the discovery strategies
(optional fields are `""`/`0` for absent, which is exactly how the
`||`-defaults downstream treat them). -/
structure SearchResult where
  title : String := ""
  url : String := ""
  provider : String := ""
  description : String := ""
  rating : ℚ := 0
  cost : String := ""
  duration : String := ""
  quality_score : ℚ := 0
deriving DecidableEq, Repr

/-- A course provider roster entry. -/
structure CourseProvider where
  name : String
  baseUrl : String
  searchPattern : String
  costIndicator : String
  qualityScore : ℚ
deriving DecidableEq, Repr

/-- The fixed provider roster with quality scores, in declaration
order. -/
def courseProviders : List CourseProvider :=
  [⟨"Coursera", "coursera.org", "site:coursera.org", "mixed", 9.5⟩,
   ⟨"edX", "edx.org", "site:edx.org", "mixed", 9.0⟩,
   ⟨"LinkedIn Learning", "linkedin.com/learning", "site:linkedin.com/learning", "paid", 8.5⟩,
   ⟨"Udemy", "udemy.com", "site:udemy.com", "paid", 7.5⟩,
   ⟨"Microsoft Learn", "docs.microsoft.com/learn", "site:docs.microsoft.com/learn", "free", 8.8⟩,
   ⟨"Google AI Education", "developers.google.com", "site:developers.google.com", "free", 8.7⟩,
   ⟨"IBM SkillsBuild", "skillsbuild.org", "site:skillsbuild.org", "free", 8.0⟩,
   ⟨"AWS Training", "aws.amazon.com/training", "site:aws.amazon.com/training", "mixed", 8.3⟩,
   ⟨"Pluralsight", "pluralsight.com", "site:pluralsight.com", "paid", 8.2⟩,
   ⟨"FutureLearn", "futurelearn.com", "site:futurelearn.com", "mixed", 7.8⟩]

/-- `String.prototype.includes` on character lists. -/
def containsSubAux : List Char → List Char → Bool
  | hay, needle =>
    needle.isPrefixOf hay ||
      match hay with
      | [] => false
      | _ :: t => containsSubAux t needle

/-- `hay.includes(needle)`. -/
def strIncludes (hay needle : String) : Bool :=
  containsSubAux hay.toList needle.toList

/-- Modelled platform URL parser: the `hostname` of a URL — the text
after the `http(s)://` scheme up to the first `/`, `?`, `#` or `:`. -/
def hostOf (url : String) : String :=
  let afterScheme :=
    if startsWithL url "https://" then url.drop 8
    else if startsWithL url "http://" then url.drop 7
    else url
  ⟨afterScheme.toList.takeWhile (fun c => c ≠ '/' ∧ c ≠ '?' ∧ c ≠ '#' ∧ c ≠ ':')⟩

/-- Modelled platform URL parser: `new URL(url)` succeeds — an
`http(s)://` scheme with a nonempty host. -/
def urlParses (url : String) : Bool :=
  (startsWithL url "http://" || startsWithL url "https://") && hostOf url ≠ ""

/-- `EnhancedResourceFetcher.isValidUrl`: the URL parses and starts with
`http://` or `https://`. -/
def isValidUrl (url : String) : Bool :=
  urlParses url && (startsWithL url "http://" || startsWithL url "https://")

/-- The `providerMap` of `EnhancedResourceFetcher.extractProvider`, in
declaration order. -/
def providerMap : List (String × String) :=
  [("coursera.org", "Coursera"),
   ("edx.org", "edX"),
   ("udemy.com", "Udemy"),
   ("linkedin.com", "LinkedIn Learning"),
   ("docs.microsoft.com", "Microsoft Learn"),
   ("developers.google.com", "Google"),
   ("aws.amazon.com", "AWS Training"),
   ("pluralsight.com", "Pluralsight"),
   ("skillsbuild.org", "IBM SkillsBuild"),
   ("futurelearn.com", "FutureLearn")]

/-- `EnhancedResourceFetcher.extractProvider`: first `providerMap` entry
whose domain key occurs in the lowercased hostname; `'Online Platform'`
when none matches, `'Unknown Provider'` when URL parsing throws. -/
def extractProvider (url : String) : String :=
  if urlParses url then
    match providerMap.find? (fun e => strIncludes (strToLower (hostOf url)) e.1) with
    | some e => e.2
    | none => "Online Platform"
  else "Unknown Provider"

/-- The body of the `processAndValidateResults` loop for one candidate:
`none` (the `continue`) when the URL is empty or syntactically invalid,
otherwise the resource with its `||`-defaults applied and
`verified: true` set unconditionally — no reachability check exists in
this pipeline. -/
def processOne (skillName : String) (result : SearchResult) : Option LearningResource :=
  if result.url = "" ∨ ¬ isValidUrl result.url then none
  else
    some
      { title := if result.title = "" then "Untitled Course" else result.title
        provider := if result.provider = "" then extractProvider result.url
                    else result.provider
        url := result.url
        type := "course"
        duration := if result.duration = "" then "varies" else result.duration
        cost := if result.cost = "free" then .free
                else if result.cost = "paid" then .paid
                else .free
        rating := if result.rating = 0 then 4.0 else result.rating
        verified := true
        description := if result.description = "" then
                         "Learn " ++ skillName ++ " skills"
                       else result.description }

/-- `EnhancedResourceFetcher.processAndValidateResults`. -/
def processAndValidateResults (results : List SearchResult) (skillName : String) :
    List LearningResource :=
  results.filterMap (processOne skillName)

/-- The composite score of `EnhancedResourceFetcher.scoreAndRankResources`:
provider quality (0 for unknown providers) + `2 * (rating || 4.0)` +
5 for free + 10 for a case-insensitive title/skill match + 3 for
verified. -/
def computeScore (skillName : String) (resource : LearningResource) : ℚ :=
  (match courseProviders.find? (fun p => p.name = resource.provider) with
   | some p => p.qualityScore
   | none => 0) +
  (if resource.rating = 0 then 4.0 else resource.rating) * 2 +
  (if resource.cost = Cost.free then 5 else 0) +
  (if strIncludes (strToLower resource.title) (strToLower skillName) then 10 else 0) +
  (if resource.verified then 3 else 0)

/-- Stable descending insertion: a new element goes after all existing
elements of greater-or-equal key. -/
def insertDesc (key : LearningResource → ℚ) (x : LearningResource) :
    List LearningResource → List LearningResource
  | [] => [x]
  | y :: ys => if key x > key y then x :: y :: ys else y :: insertDesc key x ys

/-- Stable sort, descending by key: elements are inserted left to right,
each after the existing elements of greater-or-equal key, so equal keys
retain input order.  This models `Array.prototype.sort` (specified
stable) with the comparator `(a, b) => b.computed_score - a.computed_score`. -/
def stableSortDesc (key : LearningResource → ℚ) (l : List LearningResource) :
    List LearningResource :=
  l.foldl (fun acc x => insertDesc key x acc) []

/-- `EnhancedResourceFetcher.scoreAndRankResources`: stable descending
sort by the composite score (the attached `computed_score` field is a
pure function of the resource and skill, recomputed here on demand). -/
def scoreAndRankResources (resources : List LearningResource) (skillName : String) :
    List LearningResource :=
  stableSortDesc (computeScore skillName) resources

/-- One candidate of the `addUniqueResults` loop: appended only when its
URL is nonempty (truthy) and not yet seen, its URL then recorded as
seen. -/
def addUniqueStep (acc : List SearchResult × List String) (r : SearchResult) :
    List SearchResult × List String :=
  if r.url ≠ "" ∧ r.url ∉ acc.2 then (acc.1 ++ [r], acc.2 ++ [r.url]) else acc

/-- `EnhancedResourceFetcher.addUniqueResults` acting on the accumulated
result list together with the `seenUrls` set. -/
def addUniqueResults (acc : List SearchResult × List String)
    (newResults : List SearchResult) : List SearchResult × List String :=
  newResults.foldl addUniqueStep acc

/-- The strategy outputs merged in strategy order by
`findVerifiedResources`, with the curated table appended only when fewer
than 3 results accumulated. -/
def aggregateAll (grokResults providerResults aggregatorResults curatedResults :
    List SearchResult) : List SearchResult :=
  let acc1 := addUniqueResults ([], []) grokResults
  let acc2 := addUniqueResults acc1 providerResults
  let acc3 := addUniqueResults acc2 aggregatorResults
  let acc4 := if acc3.1.length < 3 then addUniqueResults acc3 curatedResults else acc3
  acc4.1

/-- The candidate sequence actually offered to the deduplication in a
call (curated candidates participate only when fewer than 3 results
accumulated before them). -/
def aggregateAllInputs (grokResults providerResults aggregatorResults curatedResults :
    List SearchResult) : List SearchResult :=
  grokResults ++ providerResults ++ aggregatorResults ++
    (if (aggregateAll grokResults providerResults aggregatorResults []).length < 3 then
      curatedResults
    else [])

/-- `EnhancedResourceFetcher.findVerifiedResources` downstream of the
strategy calls: merge-deduplicate, process/validate, rank, and return
the top 3. -/
def findVerifiedResourcesCore
    (grokResults providerResults aggregatorResults curatedResults : List SearchResult)
    (skillName : String) : List LearningResource :=
  let allResults := aggregateAll grokResults providerResults aggregatorResults
    curatedResults
  let verifiedResources := processAndValidateResults allResults skillName
  let rankedResources := scoreAndRankResources verifiedResources skillName
  rankedResources.take 3

/-! ### Specification-side definitions and well-formedness predicates -/

/-- Well-formedness: node ids are pairwise distinct.  Every state whose
node store is a JS `Map` satisfies this. -/
def NodupIds (g : GraphState) : Prop := (nodeIds g).Nodup

/-- Every stored relationship has positive strength (the data-model
invariant `strength ∈ (0,1]`, lower half). -/
def StrengthsPos (g : GraphState) : Prop :=
  ∀ e ∈ g.relationships, ∀ r ∈ e.2, 0 < r.strength

/-- Every stored relationship has strength in `(0, 1]` (the full
data-model invariant). -/
def StrengthsInUnit (g : GraphState) : Prop :=
  ∀ e ∈ g.relationships, ∀ r ∈ e.2, 0 < r.strength ∧ r.strength ≤ 1

/-- One-edge adjacency as Dijkstra explores it: both endpoints are node
ids and the edge set of `u` contains `v` (edges towards non-node ids are
never relaxed because only node ids are ever unvisited). -/
def adjacent (g : GraphState) (u v : String) : Prop :=
  u ∈ nodeIds g ∧ v ∈ nodeIds g ∧ v ∈ edgesOf g u

/-- Graph reachability along `adjacent`. -/
def ReachableAdj (g : GraphState) (u v : String) : Prop :=
  Relation.ReflTransGen (adjacent g) u v

/-- The confidence of a path-finder result (`0` for the error case). -/
def confidenceOfResult : Except String PathResult → ℚ
  | .ok r => r.confidence
  | .error _ => 0

/-- Spec-side reading of the claim "`1 / strength` of the strongest
relationship between the pair, or `1.0` if none exists": the maximal
stored strength. -/
def maxStrength (rs : List Relationship) : ℚ :=
  rs.foldl (fun m r => max m r.strength) 0

/-- Spec-side edge weight per the claim wording: strongest relationship
wins. -/
def specEdgeWeightStrongest (g : GraphState) (from_ to_ : String) : ℚ :=
  if relsOf g from_ to_ = [] then 1
  else 1 / maxStrength (relsOf g from_ to_)

/-- Spec-side edge weight per the amended wording: the **first** stored
relationship wins, its falsy strength defaulting to `0.5`. -/
def specEdgeWeightFirst (g : GraphState) (from_ to_ : String) : ℚ :=
  match (relsOf g from_ to_).head? with
  | none => 1
  | some r => 1 / (if r.strength = 0 then 0.5 else r.strength)

/-- The composite score exactly as the claim words it:
`providerQualityScore(provider) + 2*rating + (5 if cost is free) +
(10 if the title contains the skill name case-insensitively) +
(3 if verified)` — with no defaulting of the rating. -/
def specScoreClaim (skillName : String) (resource : LearningResource) : ℚ :=
  (match courseProviders.find? (fun p => p.name = resource.provider) with
   | some p => p.qualityScore
   | none => 0) +
  2 * resource.rating +
  (if resource.cost = Cost.free then 5 else 0) +
  (if strIncludes (strToLower resource.title) (strToLower skillName) then 10 else 0) +
  (if resource.verified then 3 else 0)

/-- Modelled from the spec: URL normalization for deduplication —
"scheme/host/path, ignoring tracking query parameters where feasible".
No normalization function exists anywhere in the source; this definition
realizes the spec's wording (dropping `utm_`-prefixed query parameters)
so that the claimed normalized-URL deduplication can be stated. -/
def normalizeUrl (url : String) : String :=
  let base : String := ⟨url.toList.takeWhile (fun c => c ≠ '?')⟩
  let query : String := ⟨(url.toList.dropWhile (fun c => c ≠ '?')).drop 1⟩
  let kept := ((query.toList.splitOn '&').map (fun l => (⟨l⟩ : String))).filter
    (fun p => ¬ startsWithL p "utm_" ∧ p ≠ "")
  if kept = [] then base else base ++ "?" ++ String.intercalate "&" kept

/-! ### Concrete program states and inputs used by the analyses -/

/-- Two relationships on the same ordered pair, the first weaker than the
second — reachable via two `createRelationship` calls. -/
def twoRelGraph : GraphState :=
  createRelationship
    (createRelationship emptyGraph "a" "b" { type := "LEADS_TO", strength := 0.5 })
    "a" "b" { type := "REQUIRED_FOR", strength := 0.8 }

/-- A zero-strength relationship stored by `createRelationship`. -/
def zeroStrengthGraph : GraphState :=
  createRelationship emptyGraph "a" "b" { type := "REQUIRED_FOR", strength := 0 }

/-- A minimal graph with one skill, one role and one direct required-for
edge of strength exactly `0.6`. -/
def directEdge06Graph : GraphState :=
  createRelationship
    (addRole (addSkill emptyGraph ⟨"X", "Technology", "beginner", 20⟩)
      ⟨"R", "Operations", "high", 50000, "role"⟩)
    "skill-x" "role-r" { type := "REQUIRED_FOR", strength := 0.6, priority := "core" }

/-- The same minimal graph with edge strength `0.9`. -/
def directEdge09Graph : GraphState :=
  createRelationship
    (addRole (addSkill emptyGraph ⟨"X", "Technology", "beginner", 20⟩)
      ⟨"R", "Operations", "high", 50000, "role"⟩)
    "skill-x" "role-r" { type := "REQUIRED_FOR", strength := 0.9, priority := "core" }

/-- An always-empty resource oracle (offline mode). -/
def emptyFetch : String → List LearningResource := fun _ => []

/-- A request with no known skills against a seeded role. -/
def opsAnalystRequest : PathwayRequest := ⟨[], "AI-Enhanced Operations Analyst"⟩

/-- The pathway response computed for `opsAnalystRequest` on the seeded
database. -/
def opsAnalystResponse : PathwayResponse :=
  match generatePathway seedGraph emptyFetch opsAnalystRequest with
  | .ok r => r
  | .error _ => ⟨false, ⟨"", [], [], "", 0, []⟩, ""⟩

/-- A syntactically valid search candidate. -/
def validCandidate : SearchResult :=
  { title := "Course A", url := "https://example.com/a", provider := "Coursera",
    description := "d", rating := 4.5, cost := "free", duration := "1 week" }

/-- A ranked resource with rating `0` (falsy, so the code scores it with
the `4.0` default). -/
def zeroRatingResource : LearningResource :=
  { title := "Zero", provider := "Nobody", url := "https://z.example.com/z",
    type := "course", duration := "varies", cost := .paid, rating := 0,
    verified := false }

/-- A ranked resource with rating `2`. -/
def lowRatingResource : LearningResource :=
  { title := "Low", provider := "Nobody2", url := "https://l.example.com/l",
    type := "course", duration := "varies", cost := .paid, rating := 2,
    verified := false }

/-- A candidate URL without tracking parameters. -/
def plainUrlCandidate : SearchResult :=
  { title := "Plain", url := "https://example.com/course",
    provider := "Coursera", rating := 4.5, cost := "free" }

/-- The same course URL carrying a `utm_source` tracking parameter. -/
def trackedUrlCandidate : SearchResult :=
  { title := "Tracked", url := "https://example.com/course?utm_source=news",
    provider := "Coursera", rating := 4.5, cost := "free" }

/-- Loop invariant of the Dijkstra main loop, relating the unvisited
list, the distance map and the predecessor map.  Settled nodes are the
node ids outside `u`. -/
structure DijkInv (g : GraphState) (startId endId : String) (u : List String)
    (dist : String → WithTop ℚ) (prev : String → Option String) : Prop where
  sub : ∀ v ∈ u, v ∈ nodeIds g
  nodupU : u.Nodup
  endMem : endId ∈ u
  startMem : startId ∈ nodeIds g
  distStart : dist startId = ((0 : ℚ) : WithTop ℚ)
  prevStart : prev startId = none
  nonneg : ∀ v, 0 ≤ dist v
  settledFin : ∀ v ∈ nodeIds g, v ∉ u → dist v ≠ ⊤
  finChain : ∀ v, dist v ≠ ⊤ → v ∈ nodeIds g ∧
    (v = startId ∨ ∃ p, prev v = some p ∧ p ∉ u ∧ adjacent g p v ∧ dist p ≠ ⊤ ∧
      dist v = dist p + ((getEdgeWeight g p v : ℚ) : WithTop ℚ))
  frontier : ∀ p ∈ nodeIds g, p ∉ u → ∀ v, adjacent g p v → (v ∉ u ∨ dist v ≠ ⊤)

/-! ## Theorems -/

/-- Claim C1: the spec scenario — known skills `["Project Management"]`,
target role `"AI-Enhanced Project Manager"` — expects 3 skill gaps
including "AI Tools Proficiency" (20 h, confidence ≥ 0.6) and no
failure.  On the seeded database the call instead fails: the seed wires
relationships to the node id `role-ai-enhanced-project-manager` but
never creates that role node, so the target-role lookup throws. -/
theorem c1_scenario_throws_role_not_found :
    findShortestPath seedGraph ["Project Management"] "AI-Enhanced Project Manager" =
      .error "Role \"AI-Enhanced Project Manager\" not found" := by
  decide

/-- Claim C3 (amended): `edgeWeight` returns `1 / strength` of the
**first** stored relationship of the pair (falsy strength defaulting to
`0.5`), or `1.0` when none exists — not the strongest relationship. -/
theorem c3_edge_weight_is_first_relationship (g : GraphState) (a b : String) :
    getEdgeWeight g a b = specEdgeWeightFirst g a b := by
  unfold getEdgeWeight specEdgeWeightFirst
  cases relsOf g a b <;> simp

/-- Claim C3 (counterexample): with two relationships on the pair
`("a", "b")` — first of strength `0.5`, second of strength `0.8` —
`getEdgeWeight` returns `2 = 1/0.5`, not the `1/0.8 = 5/4` of the
strongest relationship. -/
theorem c3_counterexample_first_beats_strongest :
    getEdgeWeight twoRelGraph "a" "b" = 2 ∧
    specEdgeWeightStrongest twoRelGraph "a" "b" = 5 / 4 ∧
    getEdgeWeight twoRelGraph "a" "b" ≠ specEdgeWeightStrongest twoRelGraph "a" "b" := by
  refine ⟨by decide, by decide, by decide⟩

/-- Finding under the key written by `addRel` yields the old bucket with
the new relationship appended. -/
theorem addRel_find_eq (l : List (String × List Relationship)) (key : String)
    (r : Relationship) :
    (addRel l key r).find? (fun e => e.1 = key) =
      some (key, ((l.find? (fun e => e.1 = key)).map (·.2)).getD [] ++ [r]) := by
  induction l with
  | nil => simp [addRel]
  | cons hd tl ih =>
    obtain ⟨k, rs⟩ := hd
    by_cases h : k = key
    · subst h
      simp [addRel]
    · simp [addRel, h, ih]

/-- Claim C9 (amended): `createRelationship` performs no validation and
cannot fail; it stores the relationship exactly as given, for every
strength — in particular a relationship with `strength ≤ 0` is stored. -/
theorem c9_create_relationship_stores_unvalidated (g : GraphState)
    (from_ to_ : String) (rel : Relationship) :
    relsOf (createRelationship g from_ to_ rel) from_ to_ =
      relsOf g from_ to_ ++ [rel] := by
  unfold relsOf createRelationship
  simp [addRel_find_eq]

/-- Claim C9 (counterexample): after `createRelationship` with strength
`0`, the graph contains the zero-strength relationship — the call did
not fail and did not reject the edge. -/
theorem c9_counterexample_zero_strength_stored :
    relsOf zeroStrengthGraph "a" "b" = [{ type := "REQUIRED_FOR", strength := 0 }] ∧
    ¬ ((0 : ℚ) > 0) := by
  refine ⟨by decide, by decide⟩

/-- Claim C4 (amended): the Enhanced fetcher's processing step performs
only syntactic URL validation — every candidate surviving it has a
syntactically valid URL and is marked `verified = true` unconditionally;
no reachability check participates. -/
theorem c4_processing_is_syntactic_only (results : List SearchResult)
    (skillName : String) :
    ∀ r ∈ processAndValidateResults results skillName,
      r.verified = true ∧ isValidUrl r.url = true := by
  intro r hr
  rw [processAndValidateResults, List.mem_filterMap] at hr
  obtain ⟨sr, -, hsr⟩ := hr
  by_cases h : sr.url = "" ∨ ¬ isValidUrl sr.url
  · rw [processOne, if_pos h] at hsr
    exact absurd hsr (by simp)
  · rw [processOne, if_neg h] at hsr
    push_neg at h
    have hx := Option.some.inj hsr
    subst hx
    exact ⟨rfl, h.2⟩

theorem c4_witness :
    (⟨"Course A", "Coursera", "https://example.com/a", "course", "1 week",
        Cost.free, 4.5, true, "d"⟩ : LearningResource).verified = true ∧
      isValidUrl "https://example.com/a" = true := by
  have h := c4_processing_is_syntactic_only [validCandidate] "X"
    ⟨"Course A", "Coursera", "https://example.com/a", "course", "1 week",
      Cost.free, 4.5, true, "d"⟩ (by decide)
  exact h

/-- Claim C4 (counterexample): the claim that a returned candidate has
`verified = true` only if a reachability check on its URL returned a
non-error status is false — with the reachability oracle that fails on
every URL, the pipeline still returns the candidate marked verified. -/
theorem c4_counterexample_verified_without_reachability :
    ¬ (∀ check : String → Bool,
        ∀ r ∈ processAndValidateResults [validCandidate] "X",
          r.verified = true → check r.url = true) := by
  intro h
  have hm : (⟨"Course A", "Coursera", "https://example.com/a", "course", "1 week",
      Cost.free, 4.5, true, "d"⟩ : LearningResource) ∈
      processAndValidateResults [validCandidate] "X" := by decide
  have := h (fun _ => false) _ hm rfl
  simp at this

/-- `insertDesc` inserts, up to permutation. -/
theorem insertDesc_perm (key : LearningResource → ℚ) (x : LearningResource) :
    ∀ l : List LearningResource, (insertDesc key x l).Perm (x :: l) := by
  intro l
  induction l with
  | nil => rfl
  | cons y ys ih =>
    rw [insertDesc]
    by_cases h : key x > key y
    · rw [if_pos h]
    · rw [if_neg h]
      exact (ih.cons y).trans (List.Perm.swap x y ys)

/-- The insertion fold permutes the accumulator and the input. -/
theorem foldl_insertDesc_perm (key : LearningResource → ℚ) :
    ∀ (l acc : List LearningResource),
      (l.foldl (fun acc x => insertDesc key x acc) acc).Perm (acc ++ l) := by
  intro l
  induction l with
  | nil => simp
  | cons x xs ih =>
    intro acc
    simp only [List.foldl_cons]
    refine (ih (insertDesc key x acc)).trans ?_
    refine (((insertDesc_perm key x acc).append_right xs).trans ?_)
    exact List.perm_middle.symm

/-- `insertDesc` preserves descending sortedness. -/
theorem insertDesc_sorted (key : LearningResource → ℚ) (x : LearningResource) :
    ∀ l : List LearningResource,
      l.Pairwise (fun a b => key b ≤ key a) →
      (insertDesc key x l).Pairwise (fun a b => key b ≤ key a) := by
  intro l
  induction l with
  | nil => intro _; simp [insertDesc]
  | cons y ys ih =>
    intro hl
    rcases List.pairwise_cons.mp hl with ⟨hy, hys⟩
    rw [insertDesc]
    by_cases h : key x > key y
    · rw [if_pos h]
      refine List.pairwise_cons.mpr ⟨?_, hl⟩
      intro z hz
      rcases List.mem_cons.mp hz with rfl | hz'
      · exact le_of_lt h
      · exact (hy z hz').trans (le_of_lt h)
    · rw [if_neg h]
      push_neg at h
      refine List.pairwise_cons.mpr ⟨?_, ih hys⟩
      intro z hz
      have : z = x ∨ z ∈ ys := by
        simpa using (insertDesc_perm key x ys).mem_iff.mp hz
      rcases this with rfl | hz'
      · exact h
      · exact hy z hz'

/-- On a sorted list, `insertDesc` appends the new element to the tail of
its own key class and leaves other key classes unchanged. -/
theorem filter_insertDesc (key : LearningResource → ℚ) (x : LearningResource) (q : ℚ) :
    ∀ l : List LearningResource,
      l.Pairwise (fun a b => key b ≤ key a) →
      (insertDesc key x l).filter (fun r => key r == q) =
        if key x == q then l.filter (fun r => key r == q) ++ [x]
        else l.filter (fun r => key r == q) := by
  intro l
  induction l with
  | nil =>
    intro _
    by_cases hq : key x == q <;> simp [insertDesc, List.filter, hq]
  | cons y ys ih =>
    intro hl
    rcases List.pairwise_cons.mp hl with ⟨hy, hys⟩
    rw [insertDesc]
    by_cases h : key x > key y
    · rw [if_pos h]
      by_cases hq : key x == q
      · have hqq : key x = q := by simpa using hq
        have hnone : ∀ z ∈ y :: ys, ¬ ((key z == q) = true) := by
          intro z hz
          have hzy : key z ≤ key y := by
            rcases List.mem_cons.mp hz with rfl | hz'
            · exact le_rfl
            · exact hy z hz'
          have hlt : key z < q := hqq ▸ lt_of_le_of_lt hzy h
          simpa [beq_iff_eq] using ne_of_lt hlt
        have hfe : (y :: ys).filter (fun r => key r == q) = [] :=
          List.filter_eq_nil_iff.mpr hnone
        rw [List.filter_cons_of_pos (by simpa using hq), hfe, if_pos hq]
        rfl
      · rw [List.filter_cons_of_neg (by simpa using hq), if_neg hq]
    · rw [if_neg h]
      rw [List.filter_cons, ih hys]
      by_cases hx : key x == q <;> by_cases hyq : key y == q <;>
        simp [List.filter_cons, hx, hyq]

/-- The insertion fold is stable: each key class of the output is the
concatenation of the accumulator's and the input's key classes, in input
order. -/
theorem filter_foldl_insertDesc (key : LearningResource → ℚ) (q : ℚ) :
    ∀ (l acc : List LearningResource),
      acc.Pairwise (fun a b => key b ≤ key a) →
      (l.foldl (fun acc x => insertDesc key x acc) acc).filter (fun r => key r == q) =
        acc.filter (fun r => key r == q) ++ l.filter (fun r => key r == q) := by
  intro l
  induction l with
  | nil => intro acc _; simp
  | cons x xs ih =>
    intro acc hacc
    simp only [List.foldl_cons]
    rw [ih _ (insertDesc_sorted key x acc hacc), filter_insertDesc key x q acc hacc]
    by_cases hq : key x == q <;> simp [List.filter_cons, hq]

/-- The insertion fold keeps the accumulator sorted. -/
theorem foldl_insertDesc_sorted (key : LearningResource → ℚ) :
    ∀ (l acc : List LearningResource),
      acc.Pairwise (fun a b => key b ≤ key a) →
      (l.foldl (fun acc x => insertDesc key x acc) acc).Pairwise
        (fun a b => key b ≤ key a) := by
  intro l
  induction l with
  | nil => intro acc h; simpa using h
  | cons x xs ih =>
    intro acc hacc
    simp only [List.foldl_cons]
    exact ih _ (insertDesc_sorted key x acc hacc)

/-- Claim C5 (amended): the ranking step outputs a permutation of its
input sorted non-increasingly by the composite score as the code computes
it — provider quality + `2 * (rating || 4.0)` + 5 for free + 10 for a
case-insensitive title match + 3 for verified — with equal-score
candidates keeping their relative input order (each score class of the
output equals that of the input, in order).  The code's score agrees with
the claim's composite exactly when the rating is not the falsy `0`. -/
theorem c5_rank_is_stable_sort_by_code_score (resources : List LearningResource)
    (skillName : String) :
    (scoreAndRankResources resources skillName).Perm resources ∧
    (scoreAndRankResources resources skillName).Pairwise
      (fun a b => computeScore skillName b ≤ computeScore skillName a) ∧
    (∀ q : ℚ,
      (scoreAndRankResources resources skillName).filter
          (fun r => computeScore skillName r == q) =
        resources.filter (fun r => computeScore skillName r == q)) ∧
    (∀ r : LearningResource, r.rating ≠ 0 →
      computeScore skillName r = specScoreClaim skillName r) := by
  refine ⟨?_, ?_, ?_, ?_⟩
  · simpa using foldl_insertDesc_perm (computeScore skillName) resources []
  · exact foldl_insertDesc_sorted (computeScore skillName) resources [] (by simp)
  · intro q
    simpa using filter_foldl_insertDesc (computeScore skillName) q resources [] (by simp)
  · intro r hr
    unfold computeScore specScoreClaim
    rw [if_neg hr]
    ring

theorem c5_witness :
    (scoreAndRankResources [zeroRatingResource, lowRatingResource] "Skill").Pairwise
      (fun a b => computeScore "Skill" b ≤ computeScore "Skill" a) :=
  (c5_rank_is_stable_sort_by_code_score [zeroRatingResource, lowRatingResource]
    "Skill").2.1

/-- Claim C5 (counterexample): the output is **not** sorted by the
claim's composite score with the plain `2*rating` term — a rating-0
candidate is scored with the `4.0` default (8 points, not 0), so it is
ranked above a rating-2 candidate that the claim's formula would place
first. -/
theorem c5_counterexample_rating_default :
    ¬ (scoreAndRankResources [zeroRatingResource, lowRatingResource] "Skill").Pairwise
      (fun a b => specScoreClaim "Skill" b ≤ specScoreClaim "Skill" a) := by
  decide

/-- `processOne` never changes the candidate's URL. -/
theorem processOne_url (skillName : String) (sr : SearchResult) (r : LearningResource)
    (h : processOne skillName sr = some r) : r.url = sr.url := by
  by_cases hc : sr.url = "" ∨ ¬ isValidUrl sr.url
  · rw [processOne, if_pos hc] at h
    exact absurd h (by simp)
  · rw [processOne, if_neg hc] at h
    have := Option.some.inj h
    subst this
    rfl


/-- Invariant of the `addUniqueResults` merge: the seen set is exactly
the admitted URLs (no duplicates, no empty URL), every candidate offered
so far is URL-less or already seen, and each admitted candidate is the
first offered candidate bearing its URL. -/
theorem addUniqueResults_inv :
    ∀ (newResults processed : List SearchResult) (acc : List SearchResult × List String),
      acc.2 = acc.1.map (·.url) →
      (∀ x ∈ acc.1, x.url ≠ "") →
      acc.2.Nodup →
      (∀ x ∈ processed, x.url = "" ∨ x.url ∈ acc.2) →
      (∀ sr ∈ acc.1, processed.find? (fun x => x.url == sr.url) = some sr) →
      (addUniqueResults acc newResults).2 =
          (addUniqueResults acc newResults).1.map (·.url) ∧
        (∀ x ∈ (addUniqueResults acc newResults).1, x.url ≠ "") ∧
        (addUniqueResults acc newResults).2.Nodup ∧
        (∀ x ∈ processed ++ newResults,
          x.url = "" ∨ x.url ∈ (addUniqueResults acc newResults).2) ∧
        (∀ sr ∈ (addUniqueResults acc newResults).1,
          (processed ++ newResults).find? (fun x => x.url == sr.url) = some sr) := by
  intro newResults
  induction newResults with
  | nil =>
    intro processed acc h1 h2 h3 h4 h5
    exact ⟨h1, h2, h3, by simpa using h4, by simpa using h5⟩
  | cons r rest ih =>
    intro processed acc h1 h2 h3 h4 h5
    have hcons : addUniqueResults acc (r :: rest) =
        addUniqueResults (addUniqueStep acc r) rest := rfl
    have hassoc : processed ++ r :: rest = (processed ++ [r]) ++ rest := by
      simp
    by_cases hc : r.url ≠ "" ∧ r.url ∉ acc.2
    · have hstep : addUniqueStep acc r = (acc.1 ++ [r], acc.2 ++ [r.url]) := by
        rw [addUniqueStep, if_pos hc]
      have h1' : (addUniqueStep acc r).2 = (addUniqueStep acc r).1.map (·.url) := by
        rw [hstep]
        simp [h1]
      have h2' : ∀ x ∈ (addUniqueStep acc r).1, x.url ≠ "" := by
        rw [hstep]
        intro x hx
        rcases List.mem_append.mp hx with hx' | hx'
        · exact h2 x hx'
        · simp only [List.mem_singleton] at hx'
          subst hx'
          exact hc.1
      have h3' : (addUniqueStep acc r).2.Nodup := by
        rw [hstep]
        refine List.nodup_append.mpr ⟨h3, List.nodup_singleton _, ?_⟩
        intro x hx hx'
        simp only [List.mem_singleton] at hx'
        subst hx'
        exact hc.2 hx
      have h4' : ∀ x ∈ processed ++ [r], x.url = "" ∨ x.url ∈ (addUniqueStep acc r).2 := by
        rw [hstep]
        intro x hx
        rcases List.mem_append.mp hx with hx' | hx'
        · rcases h4 x hx' with h | h
          · exact Or.inl h
          · exact Or.inr (List.mem_append.mpr (Or.inl h))
        · simp only [List.mem_singleton] at hx'
          subst hx'
          exact Or.inr (List.mem_append.mpr (Or.inr (List.mem_singleton.mpr rfl)))
      have hfindnone : processed.find? (fun x => x.url == r.url) = none := by
        rw [List.find?_eq_none]
        intro x hx
        rcases h4 x hx with h | h
        · simp [h, beq_iff_eq]
          intro he
          exact hc.1 he.symm
        · simp [beq_iff_eq]
          intro he
          exact hc.2 (he ▸ h)
      have h5' : ∀ sr ∈ (addUniqueStep acc r).1,
          (processed ++ [r]).find? (fun x => x.url == sr.url) = some sr := by
        rw [hstep]
        intro sr hsr
        rcases List.mem_append.mp hsr with hsr' | hsr'
        · rw [List.find?_append, h5 sr hsr']
          rfl
        · simp only [List.mem_singleton] at hsr'
          subst hsr'
          rw [List.find?_append, hfindnone]
          simp
      have := ih (processed ++ [r]) (addUniqueStep acc r) h1' h2' h3' h4' h5'
      rw [hcons, hassoc]
      exact this
    · have hstep : addUniqueStep acc r = acc := by
        rw [addUniqueStep, if_neg hc]
      push_neg at hc
      have h4' : ∀ x ∈ processed ++ [r], x.url = "" ∨ x.url ∈ acc.2 := by
        intro x hx
        rcases List.mem_append.mp hx with hx' | hx'
        · exact h4 x hx'
        · simp only [List.mem_singleton] at hx'
          subst hx'
          by_cases hu : x.url = ""
          · exact Or.inl hu
          · exact Or.inr (hc hu)
      have h5' : ∀ sr ∈ acc.1,
          (processed ++ [r]).find? (fun x => x.url == sr.url) = some sr := by
        intro sr hsr
        rw [List.find?_append, h5 sr hsr]
        rfl
      have := ih (processed ++ [r]) acc h1 h2 h3 h4' h5'
      rw [hcons, hstep, hassoc]
      exact this

/-- The curated-fallback length test of `findVerifiedResources` reads the
pre-curated accumulator. -/
theorem aggregateAll_nil_curated (grok prov agg : List SearchResult) :
    aggregateAll grok prov agg [] =
      (addUniqueResults (addUniqueResults (addUniqueResults ([], []) grok) prov)
        agg).1 := by
  simp only [aggregateAll, addUniqueResults, List.foldl_nil]
  split <;> rfl

/-- The processing and ranking pipeline preserves pairwise-distinct
URLs. -/
theorem findVerifiedResourcesCore_pairwise (grok prov agg cur : List SearchResult)
    (skillName : String)
    (hall : (aggregateAll grok prov agg cur).Pairwise (fun a b => a.url ≠ b.url)) :
    (findVerifiedResourcesCore grok prov agg cur skillName).Pairwise
      (fun a b => a.url ≠ b.url) := by
  have hsym : Symmetric (fun (a b : LearningResource) => a.url ≠ b.url) :=
    fun a b h => fun e => h e.symm
  have h1 : (processAndValidateResults (aggregateAll grok prov agg cur)
      skillName).Pairwise (fun a b => a.url ≠ b.url) := by
    rw [processAndValidateResults, List.pairwise_filterMap]
    refine hall.imp ?_
    intro a b hab x hx y hy
    have hxa := processOne_url skillName a x (Option.mem_def.mp hx)
    have hyb := processOne_url skillName b y (Option.mem_def.mp hy)
    rw [hxa, hyb]
    exact hab
  have hperm : (scoreAndRankResources
      (processAndValidateResults (aggregateAll grok prov agg cur) skillName)
      skillName).Perm
      (processAndValidateResults (aggregateAll grok prov agg cur) skillName) := by
    simpa using foldl_insertDesc_perm (computeScore skillName)
      (processAndValidateResults (aggregateAll grok prov agg cur) skillName) []
  have h2 := (hperm.pairwise_iff (fun hab => fun e => hab e.symm)).mpr h1
  simp only [findVerifiedResourcesCore]
  exact List.Pairwise.sublist (List.take_sublist 3 _) h2

/-- Claim C6 (amended): within one discovery call the aggregation never
admits two candidates with the same **exact URL string** (no
normalization exists in the code): a candidate is admitted only if its
raw URL is nonempty and not yet admitted, the first-seen candidate of
each URL wins, and the final returned list carries pairwise distinct raw
URLs. -/
theorem c6_dedup_is_by_exact_url (grok prov agg cur : List SearchResult)
    (skillName : String) :
    (findVerifiedResourcesCore grok prov agg cur skillName).Pairwise
        (fun a b => a.url ≠ b.url) ∧
      ∀ sr ∈ aggregateAll grok prov agg cur,
        sr.url ≠ "" ∧
          (aggregateAllInputs grok prov agg cur).find? (fun x => x.url == sr.url) =
            some sr := by
  have inv1 := addUniqueResults_inv grok [] ([], []) rfl (by simp) (by simp)
    (by simp) (by simp)
  have inv2 := addUniqueResults_inv prov ([] ++ grok)
    (addUniqueResults ([], []) grok) inv1.1 inv1.2.1 inv1.2.2.1 inv1.2.2.2.1
    inv1.2.2.2.2
  have inv3 := addUniqueResults_inv agg (([] ++ grok) ++ prov)
    (addUniqueResults (addUniqueResults ([], []) grok) prov)
    inv2.1 inv2.2.1 inv2.2.2.1 inv2.2.2.2.1 inv2.2.2.2.2
  by_cases hlen :
      (addUniqueResults (addUniqueResults (addUniqueResults ([], []) grok) prov)
        agg).1.length < 3
  · have inv4 := addUniqueResults_inv cur ((([] ++ grok) ++ prov) ++ agg)
      (addUniqueResults (addUniqueResults (addUniqueResults ([], []) grok) prov) agg)
      inv3.1 inv3.2.1 inv3.2.2.1 inv3.2.2.2.1 inv3.2.2.2.2
    have hagg : aggregateAll grok prov agg cur =
        (addUniqueResults
          (addUniqueResults (addUniqueResults (addUniqueResults ([], []) grok) prov)
            agg) cur).1 := by
      simp only [aggregateAll, addUniqueResults]
      rw [if_pos (by simpa [addUniqueResults] using hlen)]
    have hinputs : aggregateAllInputs grok prov agg cur =
        ((([] ++ grok) ++ prov) ++ agg) ++ cur := by
      simp only [aggregateAllInputs, aggregateAll_nil_curated]
      rw [if_pos hlen]
      simp
    refine ⟨?_, ?_⟩
    · refine findVerifiedResourcesCore_pairwise grok prov agg cur skillName ?_
      rw [hagg]
      exact List.pairwise_map.mp (inv4.1 ▸ inv4.2.2.1)
    · intro sr hsr
      rw [hagg] at hsr
      exact ⟨inv4.2.1 sr hsr, by rw [hinputs]; exact inv4.2.2.2.2 sr hsr⟩
  · have hagg : aggregateAll grok prov agg cur =
        (addUniqueResults (addUniqueResults (addUniqueResults ([], []) grok) prov)
          agg).1 := by
      simp only [aggregateAll, addUniqueResults]
      rw [if_neg (by simpa [addUniqueResults] using hlen)]
    have hinputs : aggregateAllInputs grok prov agg cur =
        (([] ++ grok) ++ prov) ++ agg := by
      simp only [aggregateAllInputs, aggregateAll_nil_curated]
      rw [if_neg hlen]
      simp
    refine ⟨?_, ?_⟩
    · refine findVerifiedResourcesCore_pairwise grok prov agg cur skillName ?_
      rw [hagg]
      exact List.pairwise_map.mp (inv3.1 ▸ inv3.2.2.1)
    · intro sr hsr
      rw [hagg] at hsr
      exact ⟨inv3.2.1 sr hsr, by rw [hinputs]; exact inv3.2.2.2.2 sr hsr⟩

theorem c6_witness :
    (findVerifiedResourcesCore [plainUrlCandidate] [trackedUrlCandidate] [] []
      "X").Pairwise (fun a b => a.url ≠ b.url) :=
  (c6_dedup_is_by_exact_url [plainUrlCandidate] [trackedUrlCandidate] [] [] "X").1

/-- Claim C6 (counterexample): two candidates whose URLs differ only by
a `utm_source` tracking parameter — hence share the spec's normalized
URL — are **both** returned by the discovery call: deduplication
compares exact URL strings, not normalized ones. -/
theorem c6_counterexample_normalized_url_duplicate :
    ¬ ((findVerifiedResourcesCore [plainUrlCandidate] [trackedUrlCandidate] [] []
        "X").map (fun r => normalizeUrl r.url)).Nodup := by
  decide

/-- Claim C10: every skill gap of a successfully generated pathway has
`priority = 'core'`, for every graph state, resource oracle and request —
the assembler hardcodes `priority: 'core'` regardless of the
core/complementary tags on the graph's relationships. -/
theorem c10_all_gaps_priority_core (g : GraphState)
    (fetch : String → List LearningResource) (request : PathwayRequest)
    (resp : PathwayResponse)
    (h : generatePathway g fetch request = .ok resp) :
    resp.pathway.skillGaps.all (fun gap => gap.priority == Priority.core) = true := by
  rw [generatePathway] at h
  cases hfind : findShortestPath g request.skills request.role with
  | error e => rw [hfind] at h; exact absurd h (by simp)
  | ok pathResult =>
    rw [hfind] at h
    have := Except.ok.inj h
    subst this
    simp [List.all_eq_true, enrichGap]

theorem c10_witness :
    opsAnalystResponse.pathway.skillGaps.all
      (fun gap => gap.priority == Priority.core) = true :=
  c10_all_gaps_priority_core seedGraph emptyFetch opsAnalystRequest
    opsAnalystResponse (by decide)

/-- The minimum scan only ever reports a member of the list, at its own
(finite) distance. -/
theorem selectMin_fold_some (dist : String → WithTop ℚ) :
    ∀ (u : List String) (acc : Option String × WithTop ℚ) (c : String)
      (md : WithTop ℚ),
      u.foldl (fun acc v => if dist v < acc.2 then (some v, dist v) else acc) acc =
        (some c, md) →
      acc = (some c, md) ∨ (c ∈ u ∧ md = dist c ∧ md ≠ ⊤) := by
  intro u
  induction u with
  | nil => intro acc c md h; exact Or.inl h
  | cons v rest ih =>
    intro acc c md h
    rw [List.foldl_cons] at h
    rcases ih _ c md h with hacc | ⟨hc, hmd, htop⟩
    · by_cases hlt : dist v < acc.2
      · rw [if_pos hlt] at hacc
        have h1 : v = c := by
          have := congrArg Prod.fst hacc
          simpa using this
        have h2 : dist v = md := by
          have := congrArg Prod.snd hacc
          simpa using this
        subst h1
        refine Or.inr ⟨List.mem_cons_self _ _, h2.symm, ?_⟩
        rw [← h2]
        exact ne_top_of_lt (lt_of_lt_of_le hlt le_top)
      · rw [if_neg hlt] at hacc
        exact Or.inl hacc
    · exact Or.inr ⟨List.mem_cons_of_mem _ hc, hmd, htop⟩

/-- `selectMin` characterization on a successful scan. -/
theorem selectMin_some (dist : String → WithTop ℚ) (u : List String) (c : String)
    (md : WithTop ℚ) (h : selectMin dist u = (some c, md)) :
    c ∈ u ∧ md = dist c ∧ md ≠ ⊤ := by
  rcases selectMin_fold_some dist u (none, ⊤) c md h with hacc | h'
  · exact absurd (congrArg Prod.fst hacc) (by simp)
  · exact h'

/-- If the scan accumulator never improves, it is returned unchanged; in
particular a `none` result means every scanned distance is infinite. -/
theorem selectMin_fold_none (dist : String → WithTop ℚ) :
    ∀ (u : List String) (acc : Option String × WithTop ℚ),
      (u.foldl (fun acc v => if dist v < acc.2 then (some v, dist v) else acc)
        acc).1 = none →
      acc.1 = none ∧ ∀ v ∈ u, ¬ dist v < acc.2 := by
  intro u
  induction u with
  | nil => intro acc h; exact ⟨h, by simp⟩
  | cons v rest ih =>
    intro acc h
    rw [List.foldl_cons] at h
    by_cases hlt : dist v < acc.2
    · rw [if_pos hlt] at h
      have := (ih _ h).1
      simp at this
    · rw [if_neg hlt] at h
      rcases ih _ h with ⟨h1, h2⟩
      refine ⟨h1, ?_⟩
      intro w hw
      rcases List.mem_cons.mp hw with rfl | hw'
      · exact hlt
      · exact h2 w hw'

/-- A `none` scan means every unvisited node is at infinite distance. -/
theorem selectMin_none (dist : String → WithTop ℚ) (u : List String)
    (h : (selectMin dist u).1 = none) : ∀ v ∈ u, dist v = ⊤ := by
  intro v hv
  have := (selectMin_fold_none dist u (none, ⊤) h).2 v hv
  simpa [lt_top_iff_ne_top] using this

/-- When the start node is the only finite-distance node, the first scan
selects it (at distance `0`). -/
theorem selectMin_unique_start (dist : String → WithTop ℚ) (s : String)
    (h0 : dist s = ((0 : ℚ) : WithTop ℚ)) (ho : ∀ v, v ≠ s → dist v = ⊤) :
    ∀ (u : List String) (acc : Option String × WithTop ℚ),
      (acc = (none, ⊤) ∧ s ∈ u) ∨ acc = (some s, ((0 : ℚ) : WithTop ℚ)) →
      u.foldl (fun acc v => if dist v < acc.2 then (some v, dist v) else acc) acc =
        (some s, ((0 : ℚ) : WithTop ℚ)) := by
  intro u
  induction u with
  | nil =>
    intro acc h
    rcases h with ⟨-, hmem⟩ | hacc
    · exact absurd hmem (List.not_mem_nil _)
    · simpa using hacc
  | cons v rest ih =>
    intro acc h
    rw [List.foldl_cons]
    rcases h with ⟨hacc, hmem⟩ | hacc
    · subst hacc
      by_cases hv : v = s
      · subst hv
        rw [if_pos (by rw [h0]; exact WithTop.coe_lt_top 0), h0]
        exact ih _ (Or.inr rfl)
      · rw [if_neg (by rw [ho v hv]; exact lt_irrefl ⊤)]
        rcases List.mem_cons.mp hmem with h' | h'
        · exact absurd h'.symm hv
        · exact ih _ (Or.inl ⟨rfl, h'⟩)
    · subst hacc
      by_cases hv : v = s
      · subst hv
        rw [if_neg (by rw [h0]; exact lt_irrefl _)]
        exact ih _ (Or.inr rfl)
      · rw [if_neg (by rw [ho v hv]; simp)]
        exact ih _ (Or.inr rfl)

/-- One relaxation either leaves a node's entries unchanged or sets its
distance to `md + w(current, nb)` (strictly smaller) with predecessor
`current`, and only for the processed unvisited neighbor. -/
theorem relaxStep_shape (g : GraphState) (current : String) (md : WithTop ℚ)
    (unvisited : List String)
    (dp : (String → WithTop ℚ) × (String → Option String)) (nb v : String) :
    ((relaxStep g current md unvisited dp nb).1 v = dp.1 v ∧
      (relaxStep g current md unvisited dp nb).2 v = dp.2 v) ∨
    ((relaxStep g current md unvisited dp nb).1 v =
        md + ((getEdgeWeight g current v : ℚ) : WithTop ℚ) ∧
      (relaxStep g current md unvisited dp nb).2 v = some current ∧
      v ∈ unvisited ∧ v = nb ∧
      (relaxStep g current md unvisited dp nb).1 v < dp.1 v) := by
  rw [relaxStep]
  by_cases hmem : nb ∈ unvisited
  · rw [if_pos hmem]
    by_cases hlt : md + ((getEdgeWeight g current nb : ℚ) : WithTop ℚ) < dp.1 nb
    · rw [if_pos hlt]
      by_cases hv : v = nb
      · subst hv
        exact Or.inr ⟨by simp, by simp, hmem, rfl, by simpa using hlt⟩
      · exact Or.inl ⟨by simp [hv], by simp [hv]⟩
    · rw [if_neg hlt]
      exact Or.inl ⟨rfl, rfl⟩
  · rw [if_neg hmem]
    exact Or.inl ⟨rfl, rfl⟩

/-- The relaxation loop either leaves a node's entries unchanged or sets
its distance to `md + w(current, v)` (strictly smaller than before) with
predecessor `current`, and only for unvisited neighbors. -/
theorem relaxAll_shape (g : GraphState) (current : String) (md : WithTop ℚ)
    (unvisited : List String) :
    ∀ (neighbors : List String)
      (dp : (String → WithTop ℚ) × (String → Option String)) (v : String),
      ((relaxAll g current md neighbors unvisited dp).1 v = dp.1 v ∧
        (relaxAll g current md neighbors unvisited dp).2 v = dp.2 v) ∨
      ((relaxAll g current md neighbors unvisited dp).1 v =
          md + ((getEdgeWeight g current v : ℚ) : WithTop ℚ) ∧
        (relaxAll g current md neighbors unvisited dp).2 v = some current ∧
        v ∈ unvisited ∧ v ∈ neighbors ∧
        (relaxAll g current md neighbors unvisited dp).1 v < dp.1 v) := by
  intro neighbors
  induction neighbors with
  | nil => intro dp v; exact Or.inl ⟨rfl, rfl⟩
  | cons nb rest ih =>
    intro dp v
    have hstep := relaxStep_shape g current md unvisited dp nb v
    have hrest := ih (relaxStep g current md unvisited dp nb) v
    have hcons : relaxAll g current md (nb :: rest) unvisited dp =
        relaxAll g current md rest unvisited (relaxStep g current md unvisited dp nb) :=
      rfl
    rw [hcons]
    rcases hrest with ⟨hd, hp⟩ | ⟨hd, hp, hu, hnb, hlt⟩
    · rcases hstep with ⟨hd', hp'⟩ | ⟨hd', hp', hu', hnb', hlt'⟩
      · exact Or.inl ⟨hd.trans hd', hp.trans hp'⟩
      · exact Or.inr ⟨hd.trans hd', hp.trans hp', hu',
          List.mem_cons.mpr (Or.inl hnb'), lt_of_le_of_lt (le_of_eq hd) hlt'⟩
    · rcases hstep with ⟨hd', hp'⟩ | ⟨hd', hp', hu', hnb', hlt'⟩
      · exact Or.inr ⟨hd, hp, hu, List.mem_cons.mpr (Or.inr hnb),
          lt_of_lt_of_le hlt (le_of_eq hd')⟩
      · exact Or.inr ⟨hd, hp, hu, List.mem_cons.mpr (Or.inr hnb),
          lt_of_lt_of_le hlt (le_of_lt hlt')⟩

/-- Relaxation never increases any distance. -/
theorem relaxAll_mono (g : GraphState) (current : String) (md : WithTop ℚ)
    (unvisited neighbors : List String)
    (dp : (String → WithTop ℚ) × (String → Option String)) (v : String) :
    (relaxAll g current md neighbors unvisited dp).1 v ≤ dp.1 v := by
  rcases relaxAll_shape g current md unvisited neighbors dp v with ⟨hd, -⟩ |
    ⟨-, -, -, -, hlt⟩
  · exact le_of_eq hd
  · exact le_of_lt hlt

/-- Relaxation leaves every node outside the unvisited set untouched. -/
theorem relaxAll_untouched (g : GraphState) (current : String) (md : WithTop ℚ)
    (unvisited neighbors : List String)
    (dp : (String → WithTop ℚ) × (String → Option String)) (v : String)
    (hv : v ∉ unvisited) :
    (relaxAll g current md neighbors unvisited dp).1 v = dp.1 v ∧
      (relaxAll g current md neighbors unvisited dp).2 v = dp.2 v := by
  rcases relaxAll_shape g current md unvisited neighbors dp v with h | ⟨-, -, hu, -, -⟩
  · exact h
  · exact absurd hu hv

/-- After the relaxation pass of an extraction at finite distance `md`,
every still-unvisited neighbor sits at distance at most
`md + w(current, ·)`. -/
theorem relaxAll_bound (g : GraphState) (current : String) (md : WithTop ℚ)
    (unvisited : List String) :
    ∀ (neighbors : List String)
      (dp : (String → WithTop ℚ) × (String → Option String)) (v : String),
      v ∈ neighbors → v ∈ unvisited →
      (relaxAll g current md neighbors unvisited dp).1 v ≤
        md + ((getEdgeWeight g current v : ℚ) : WithTop ℚ) := by
  intro neighbors
  induction neighbors with
  | nil => intro dp v hv _; exact absurd hv (List.not_mem_nil _)
  | cons nb rest ih =>
    intro dp v hv hu
    have hcons : relaxAll g current md (nb :: rest) unvisited dp =
        relaxAll g current md rest unvisited (relaxStep g current md unvisited dp nb) :=
      rfl
    rw [hcons]
    rcases List.mem_cons.mp hv with rfl | hv'
    · have hstep : (relaxStep g current md unvisited dp v).1 v ≤
          md + ((getEdgeWeight g current v : ℚ) : WithTop ℚ) := by
        rw [relaxStep, if_pos hu]
        by_cases hlt : md + ((getEdgeWeight g current v : ℚ) : WithTop ℚ) < dp.1 v
        · rw [if_pos hlt]
          simp
        · rw [if_neg hlt]
          exact le_of_not_lt hlt
      exact le_trans (relaxAll_mono g current md unvisited rest _ v) hstep
    · exact ih _ v hv' hu

/-- A filter by a strictly weaker predicate is strictly shorter, given a
witness separating the two. -/
theorem length_filter_lt_length_filter (p q : String → Bool) :
    ∀ (l : List String), (∀ x ∈ l, p x → q x) →
      ∀ x₀ ∈ l, q x₀ → ¬ p x₀ →
      (l.filter p).length < (l.filter q).length := by
  intro l
  induction l with
  | nil => intro _ x₀ hx₀; exact absurd hx₀ (List.not_mem_nil _)
  | cons a t ih =>
    intro hpq x₀ hx₀ hq hp
    have hpq' : ∀ x ∈ t, p x → q x := fun x hx => hpq x (List.mem_cons_of_mem _ hx)
    have hsub : (t.filter p).length ≤ (t.filter q).length := by
      have := List.countP_mono_left (p := p) (q := q) hpq'
      simpa [← List.countP_eq_length_filter] using this
    rcases List.mem_cons.mp hx₀ with rfl | hx₀'
    · rw [List.filter_cons, List.filter_cons, if_neg (by simpa using hp),
        if_pos (by simpa using hq)]
      exact Nat.lt_succ_of_le hsub
    · have hlt := ih hpq' x₀ hx₀' hq hp
      rw [List.filter_cons, List.filter_cons]
      by_cases hpa : p a
      · have hqa : q a := hpq a (List.mem_cons_self _ _) hpa
        rw [if_pos (by simpa using hpa), if_pos (by simpa using hqa)]
        simp only [List.length_cons]
        exact Nat.succ_lt_succ hlt
      · rw [if_neg (by simpa using hpa)]
        by_cases hqa : q a
        · rw [if_pos (by simpa using hqa)]
          exact Nat.lt_succ_of_lt hlt
        · rw [if_neg (by simpa using hqa)]
          exact hlt

/-- `pathWeight` over a path extended by one node adds the closing edge
weight. -/
theorem pathWeight_append_last (g : GraphState) :
    ∀ (l : List String) (a x : String), l.getLast? = some a →
      pathWeight g (l ++ [x]) = pathWeight g l + getEdgeWeight g a x := by
  intro l
  induction l with
  | nil => intro a x h; exact absurd h (by simp)
  | cons b t ih =>
    intro a x h
    cases t with
    | nil =>
      have hb : b = a := by simpa using h
      subst hb
      show pathWeight g [b, x] = pathWeight g [b] + getEdgeWeight g b x
      rw [pathWeight]
      rw [show pathWeight g [x] = 0 from rfl, show pathWeight g [b] = 0 from rfl]
      ring
    | cons c t' =>
      have hlast : (c :: t').getLast? = some a := by
        rwa [List.getLast?_cons_cons] at h
      have hih := ih a x hlast
      show pathWeight g (b :: c :: (t' ++ [x])) =
        pathWeight g (b :: c :: t') + getEdgeWeight g a x
      rw [pathWeight]
      rw [show (c :: (t' ++ [x])) = ((c :: t') ++ [x]) from rfl, hih, pathWeight]
      ring

/-- Path reconstruction through the predecessor pointers: from any
finite-distance node it terminates at the start node (distances are
strictly decreasing along the chain, so the number of strictly closer
graph nodes bounds its length), follows graph edges, and its total
weight telescopes to the node's distance. -/
theorem reconstructPath_spec (g : GraphState) (startId : String)
    (dist : String → WithTop ℚ) (prev : String → Option String)
    (hw : ∀ a b, 0 < getEdgeWeight g a b)
    (hstart : dist startId = ((0 : ℚ) : WithTop ℚ))
    (hprevs : prev startId = none)
    (hchain : ∀ v, dist v ≠ ⊤ → v ∈ nodeIds g ∧
      (v = startId ∨ ∃ p, prev v = some p ∧ adjacent g p v ∧ dist p ≠ ⊤ ∧
        dist v = dist p + ((getEdgeWeight g p v : ℚ) : WithTop ℚ))) :
    ∀ (fuel : Nat) (v : String), dist v ≠ ⊤ →
      ((nodeIds g).filter (fun u => decide (dist u < dist v))).length < fuel →
      (reconstructPath prev fuel v).head? = some startId ∧
      (reconstructPath prev fuel v).getLast? = some v ∧
      (reconstructPath prev fuel v).Chain' (adjacent g) ∧
      ((pathWeight g (reconstructPath prev fuel v) : ℚ) : WithTop ℚ) = dist v := by
  intro fuel
  induction fuel with
  | zero => intro v _ hcount; exact absurd hcount (by simp)
  | succ fuel ih =>
    intro v hv hcount
    rcases hchain v hv with ⟨hvmem, hcases⟩
    cases hp : prev v with
    | none =>
      have hvs : v = startId := by
        rcases hcases with h | ⟨p, hp', -⟩
        · exact h
        · rw [hp] at hp'
          exact absurd hp' (by simp)
      subst hvs
      rw [reconstructPath, hp]
      refine ⟨rfl, rfl, List.chain'_singleton _, ?_⟩
      rw [show pathWeight g [v] = 0 from rfl, hstart]
    | some p =>
      have hex : ∃ p', prev v = some p' ∧ adjacent g p' v ∧ dist p' ≠ ⊤ ∧
          dist v = dist p' + ((getEdgeWeight g p' v : ℚ) : WithTop ℚ) := by
        rcases hcases with h | h
        · subst h
          rw [hprevs] at hp
          exact absurd hp (by simp)
        · exact h
      rcases hex with ⟨p', hp', hadj, hpfin, heq⟩
      rw [hp] at hp'
      obtain rfl : p = p' := by simpa using hp'
      have hplt : dist p < dist v := by
        rcases (WithTop.ne_top_iff_exists).mp hpfin with ⟨a, ha⟩
        rw [heq, ← ha, ← WithTop.coe_add, WithTop.coe_lt_coe]
        have := hw p v
        linarith
      have hpmem : p ∈ nodeIds g := (hchain p hpfin).1
      have hcountp : ((nodeIds g).filter
          (fun u => decide (dist u < dist p))).length <
          ((nodeIds g).filter (fun u => decide (dist u < dist v))).length := by
        refine length_filter_lt_length_filter _ _ (nodeIds g) ?_ p hpmem ?_ ?_
        · intro x _ hx
          have : dist x < dist p := by simpa using hx
          simpa using lt_trans this hplt
        · simpa using hplt
        · simp
      have hih := ih p hpfin (lt_of_lt_of_le hcountp (Nat.lt_succ_iff.mp hcount))
      rcases hih with ⟨hhead, hlast, hchain', hweight⟩
      have hne : reconstructPath prev fuel p ≠ [] := by
        intro hnil
        rw [hnil] at hhead
        exact absurd hhead (by simp)
      rw [reconstructPath, hp]
      refine ⟨?_, ?_, ?_, ?_⟩
      · rw [List.head?_append]
        rw [hhead]
        rfl
      · simp
      · rw [List.chain'_append]
        refine ⟨hchain', List.chain'_singleton _, ?_⟩
        intro x hx y hy
        rw [hlast] at hx
        have hxp : p = x := by simpa using hx
        have hyv : v = y := by simpa using hy
        subst hxp
        subst hyv
        exact hadj
      · rw [pathWeight_append_last g _ p v hlast, WithTop.coe_add, hweight, heq]

/-- One Dijkstra iteration — extracting the scanned minimum and relaxing
its outgoing edges — preserves the loop invariant. -/
theorem dijkstra_step_inv (g : GraphState) (startId endId : String)
    (hw : ∀ a b, 0 < getEdgeWeight g a b)
    (u : List String) (dist : String → WithTop ℚ) (prev : String → Option String)
    (inv : DijkInv g startId endId u dist prev)
    (c : String) (md : WithTop ℚ) (hsel : selectMin dist u = (some c, md))
    (hcne : c ≠ endId) :
    DijkInv g startId endId (u.erase c)
      (relaxAll g c md (edgesOf g c) (u.erase c) (dist, prev)).1
      (relaxAll g c md (edgesOf g c) (u.erase c) (dist, prev)).2 := by
  obtain ⟨hcmem, hmd, hmdtop⟩ := selectMin_some dist u c md hsel
  have hcu' : c ∉ u.erase c := by
    rw [inv.nodupU.mem_erase_iff]
    simp
  have hsub' : ∀ v ∈ u.erase c, v ∈ u := fun v hv => List.erase_subset _ _ hv
  have hnotin : ∀ v, v ∉ u.erase c → v ≠ c → v ∉ u := by
    intro v hv hvc hvu
    exact hv (inv.nodupU.mem_erase_iff.mpr ⟨hvc, hvu⟩)
  have huntc1 : (relaxAll g c md (edgesOf g c) (u.erase c) (dist, prev)).1 c
      = dist c :=
    (relaxAll_untouched g c md (u.erase c) (edgesOf g c) (dist, prev) c hcu').1
  have hnn : ∀ v,
      0 ≤ (relaxAll g c md (edgesOf g c) (u.erase c) (dist, prev)).1 v := by
    intro v
    rcases relaxAll_shape g c md (u.erase c) (edgesOf g c) (dist, prev) v with
      ⟨hd, -⟩ | ⟨hd, -, -, -, -⟩
    · rw [hd]; exact inv.nonneg v
    · rw [hd]
      refine add_nonneg (hmd ▸ inv.nonneg c) ?_
      exact_mod_cast le_of_lt (hw c v)
  have haddtop : ∀ v,
      md + ((getEdgeWeight g c v : ℚ) : WithTop ℚ) ≠ ⊤ := by
    intro v
    simp [WithTop.add_eq_top, hmdtop]
  refine ⟨?_, inv.nodupU.erase c, ?_, inv.startMem, ?_, ?_, hnn, ?_, ?_, ?_⟩
  · exact fun v hv => inv.sub v (hsub' v hv)
  · exact inv.nodupU.mem_erase_iff.mpr ⟨fun h => hcne h.symm, inv.endMem⟩
  · rcases relaxAll_shape g c md (u.erase c) (edgesOf g c) (dist, prev) startId with
      ⟨hd, -⟩ | ⟨hd, -, -, -, hlt⟩
    · rw [hd]; exact inv.distStart
    · exfalso
      have h0 : (0 : WithTop ℚ) ≤
          (relaxAll g c md (edgesOf g c) (u.erase c) (dist, prev)).1 startId :=
        hnn startId
      have hlt2 : (relaxAll g c md (edgesOf g c) (u.erase c)
          (dist, prev)).1 startId < dist startId := hlt
      rw [inv.distStart] at hlt2
      exact absurd (lt_of_le_of_lt h0 hlt2) (by simp)
  · rcases relaxAll_shape g c md (u.erase c) (edgesOf g c) (dist, prev) startId with
      ⟨-, hp⟩ | ⟨hd, -, -, -, hlt⟩
    · rw [hp]; exact inv.prevStart
    · exfalso
      have h0 : (0 : WithTop ℚ) ≤
          (relaxAll g c md (edgesOf g c) (u.erase c) (dist, prev)).1 startId :=
        hnn startId
      have hlt2 : (relaxAll g c md (edgesOf g c) (u.erase c)
          (dist, prev)).1 startId < dist startId := hlt
      rw [inv.distStart] at hlt2
      exact absurd (lt_of_le_of_lt h0 hlt2) (by simp)
  · -- settledFin
    intro v hvmem hvu'
    by_cases hvc : v = c
    · subst hvc
      rw [huntc1, ← hmd]
      exact hmdtop
    · have hvu := hnotin v hvu' hvc
      have holdfin := inv.settledFin v hvmem hvu
      rcases relaxAll_shape g c md (u.erase c) (edgesOf g c) (dist, prev) v with
        ⟨hd, -⟩ | ⟨hd, -, -, -, -⟩
      · rw [hd]; exact holdfin
      · rw [hd]; exact haddtop v
  · -- finChain
    intro v hvfin
    rcases relaxAll_shape g c md (u.erase c) (edgesOf g c) (dist, prev) v with
      ⟨hd, hp⟩ | ⟨hd, hp, hvu', hvnb, -⟩
    · rw [hd] at hvfin
      obtain ⟨hvmem, hcases⟩ := inv.finChain v hvfin
      refine ⟨hvmem, ?_⟩
      rcases hcases with h | ⟨p, hpv, hpu, hadj, hpfin, heq⟩
      · exact Or.inl h
      · have hpu' : p ∉ u.erase c := fun h => hpu (hsub' p h)
        have huntp1 : (relaxAll g c md (edgesOf g c) (u.erase c)
            (dist, prev)).1 p = dist p :=
          (relaxAll_untouched g c md (u.erase c) (edgesOf g c)
            (dist, prev) p hpu').1
        exact Or.inr ⟨p, hp.trans hpv, hpu', hadj, huntp1.symm ▸ hpfin,
          by rw [hd, huntp1]; exact heq⟩
    · refine ⟨inv.sub v (hsub' v hvu'), Or.inr ⟨c, hp, hcu', ?_, ?_, ?_⟩⟩
      · exact ⟨inv.sub c hcmem, inv.sub v (hsub' v hvu'), hvnb⟩
      · rw [huntc1, ← hmd]; exact hmdtop
      · rw [hd, huntc1, ← hmd]
  · -- frontier
    intro p hpmem hpu' v hadj
    by_cases hpc : p = c
    · subst hpc
      by_cases hvu' : v ∈ u.erase p
      · refine Or.inr ?_
        have hb := relaxAll_bound g p md (u.erase p) (edgesOf g p) (dist, prev) v
          hadj.2.2 hvu'
        have := lt_of_le_of_lt hb (lt_top_iff_ne_top.mpr (haddtop v))
        exact ne_top_of_lt this
      · exact Or.inl hvu'
    · have hpu := hnotin p hpu' hpc
      rcases inv.frontier p hpmem hpu v hadj with h | h
      · exact Or.inl (fun h' => h (hsub' v h'))
      · refine Or.inr ?_
        have hmono := relaxAll_mono g c md (u.erase c) (edgesOf g c) (dist, prev) v
        exact ne_top_of_lt (lt_of_le_of_lt hmono (lt_top_iff_ne_top.mpr h))

/-- Unfolding of one main-loop iteration on a nonempty unvisited list. -/
theorem dijkstraLoop_cons (g : GraphState) (endId : String) (fuel : Nat)
    (a : String) (t : List String) (dist : String → WithTop ℚ)
    (prev : String → Option String) (rfuel : Nat) :
    dijkstraLoop g endId (fuel + 1) (a :: t) dist prev rfuel =
      match selectMin dist (a :: t) with
      | (none, _) => []
      | (some current, md) =>
        if md = ⊤ then []
        else if current = endId then reconstructPath prev rfuel endId
        else
          dijkstraLoop g endId fuel ((a :: t).erase current)
            (relaxAll g current md (edgesOf g current)
              ((a :: t).erase current) (dist, prev)).1
            (relaxAll g current md (edgesOf g current)
              ((a :: t).erase current) (dist, prev)).2 rfuel := rfl

/-- Master specification of the main loop.  Under the invariant and
sufficient fuel: a nonempty result is a path of graph edges from the
start node to the target whose total weight is bounded by the target's
current tentative distance; and the result is nonempty whenever some
settled node or some finite-distance unvisited node reaches the target. -/
theorem dijkstraLoop_spec (g : GraphState) (startId endId : String)
    (hw : ∀ a b, 0 < getEdgeWeight g a b) :
    ∀ (fuel : Nat) (u : List String) (dist : String → WithTop ℚ)
      (prev : String → Option String) (rfuel : Nat),
      DijkInv g startId endId u dist prev →
      u.length ≤ fuel →
      (nodeIds g).length ≤ rfuel →
      ((dijkstraLoop g endId fuel u dist prev rfuel ≠ [] →
        (dijkstraLoop g endId fuel u dist prev rfuel).head? = some startId ∧
        (dijkstraLoop g endId fuel u dist prev rfuel).getLast? = some endId ∧
        (dijkstraLoop g endId fuel u dist prev rfuel).Chain' (adjacent g) ∧
        ((pathWeight g (dijkstraLoop g endId fuel u dist prev rfuel) : ℚ) :
            WithTop ℚ) ≤ dist endId) ∧
      ((∃ v, ReachableAdj g v endId ∧
          ((v ∈ nodeIds g ∧ v ∉ u) ∨ (v ∈ u ∧ dist v ≠ ⊤))) →
        dijkstraLoop g endId fuel u dist prev rfuel ≠ [])) := by
  intro fuel
  induction fuel with
  | zero =>
    intro u dist prev rfuel inv hlen _
    have hnil : u = [] := by cases u <;> simp_all
    exact absurd (hnil ▸ inv.endMem) (List.not_mem_nil _)
  | succ fuel ih =>
    intro u dist prev rfuel inv hlen hrf
    cases u with
    | nil => exact absurd inv.endMem (List.not_mem_nil _)
    | cons a t =>
      rcases hselp : selectMin dist (a :: t) with ⟨oc, md⟩
      cases oc with
      | none =>
        have hres : dijkstraLoop g endId (fuel + 1) (a :: t) dist prev rfuel = [] := by
          rw [dijkstraLoop_cons, hselp]
        rw [hres]
        constructor
        · intro h; exact absurd rfl h
        · rintro ⟨v, hvr, hv⟩
          exfalso
          have htopall : ∀ w ∈ (a :: t), dist w = ⊤ :=
            selectMin_none dist (a :: t) (by rw [hselp])
          have walk : ∀ x, ReachableAdj g x endId →
              x ∈ nodeIds g → x ∉ (a :: t) → False := by
            intro x hx
            refine Relation.ReflTransGen.head_induction_on hx ?_ ?_
            · intro _ hnotu
              exact hnotu inv.endMem
            · intro p q hpq hqr ihq hpmem hpu
              by_cases hqu : q ∈ (a :: t)
              · rcases inv.frontier p hpmem hpu q hpq with h | h
                · exact h hqu
                · exact h (htopall q hqu)
              · exact ihq hpq.2.1 hqu
          rcases hv with ⟨hmem, hnot⟩ | ⟨hmemu, hfin⟩
          · exact walk v hvr hmem hnot
          · exact hfin (htopall v hmemu)
      | some c =>
        obtain ⟨hcmem, hmd, hmdtop⟩ := selectMin_some dist (a :: t) c md hselp
        have hres0 : dijkstraLoop g endId (fuel + 1) (a :: t) dist prev rfuel =
            if md = ⊤ then []
            else if c = endId then reconstructPath prev rfuel endId
            else
              dijkstraLoop g endId fuel ((a :: t).erase c)
                (relaxAll g c md (edgesOf g c) ((a :: t).erase c) (dist, prev)).1
                (relaxAll g c md (edgesOf g c) ((a :: t).erase c) (dist, prev)).2
                rfuel := by
          rw [dijkstraLoop_cons, hselp]
        rw [hres0, if_neg hmdtop]
        by_cases hce : c = endId
        · subst hce
          rw [if_pos rfl]
          have hchain : ∀ v, dist v ≠ ⊤ → v ∈ nodeIds g ∧
              (v = startId ∨ ∃ p, prev v = some p ∧ adjacent g p v ∧ dist p ≠ ⊤ ∧
                dist v = dist p + ((getEdgeWeight g p v : ℚ) : WithTop ℚ)) := by
            intro v hv
            rcases inv.finChain v hv with ⟨hm, hcase⟩
            refine ⟨hm, ?_⟩
            rcases hcase with h | ⟨p, h1, -, h3, h4, h5⟩
            · exact Or.inl h
            · exact Or.inr ⟨p, h1, h3, h4, h5⟩
          have hcfin : dist c ≠ ⊤ := by rw [← hmd]; exact hmdtop
          have hcmemids : c ∈ nodeIds g := inv.sub c hcmem
          have hcount : ((nodeIds g).filter
              (fun u => decide (dist u < dist c))).length < rfuel := by
            refine lt_of_lt_of_le ?_ hrf
            rw [List.length_filter_lt_length_iff_exists]
            exact ⟨c, hcmemids, by simp⟩
          rcases reconstructPath_spec g startId dist prev hw inv.distStart
            inv.prevStart hchain rfuel c hcfin hcount with ⟨hh, hl, hch, hwt⟩
          constructor
          · intro _
            exact ⟨hh, hl, hch, le_of_eq hwt⟩
          · intro _ hnil
            rw [hnil] at hl
            exact absurd hl (by simp)
        · rw [if_neg hce]
          have inv' := dijkstra_step_inv g startId endId hw (a :: t) dist prev inv
            c md hselp hce
          have hlen' : ((a :: t).erase c).length ≤ fuel := by
            rw [List.length_erase_of_mem hcmem]
            have h1 : (a :: t).length ≤ fuel + 1 := hlen
            simp only [List.length_cons] at h1 ⊢
            omega
          have hih := ih ((a :: t).erase c)
            (relaxAll g c md (edgesOf g c) ((a :: t).erase c) (dist, prev)).1
            (relaxAll g c md (edgesOf g c) ((a :: t).erase c) (dist, prev)).2
            rfuel inv' hlen' hrf
          constructor
          · intro hne
            rcases hih.1 hne with ⟨hh, hl, hch, hwt⟩
            refine ⟨hh, hl, hch, le_trans hwt ?_⟩
            exact relaxAll_mono g c md ((a :: t).erase c) (edgesOf g c)
              (dist, prev) endId
          · rintro ⟨v, hvr, hv⟩
            refine hih.2 ⟨v, hvr, ?_⟩
            rcases hv with ⟨hmem, hnot⟩ | ⟨hmemu, hfin⟩
            · exact Or.inl ⟨hmem, fun h => hnot (List.erase_subset _ _ h)⟩
            · by_cases hvc : v = c
              · subst hvc
                refine Or.inl ⟨inv.sub v hmemu, ?_⟩
                rw [inv.nodupU.mem_erase_iff]
                simp
              · refine Or.inr ⟨inv.nodupU.mem_erase_iff.mpr ⟨hvc, hmemu⟩, ?_⟩
                have hm := relaxAll_mono g c md ((a :: t).erase c) (edgesOf g c)
                  (dist, prev) v
                exact ne_top_of_lt (lt_of_le_of_lt hm (lt_top_iff_ne_top.mpr hfin))

/-- The invariant holds at loop entry. -/
theorem dijkstra_init_inv (g : GraphState) (startId endId : String)
    (hids : NodupIds g) (hs : startId ∈ nodeIds g) (he : endId ∈ nodeIds g) :
    DijkInv g startId endId (nodeIds g)
      (fun v => if v = startId then ((0 : ℚ) : WithTop ℚ) else ⊤)
      (fun _ => none) := by
  refine ⟨fun v hv => hv, hids, he, hs, if_pos rfl, rfl, ?_, ?_, ?_, ?_⟩
  · intro v
    by_cases h : v = startId
    · rw [if_pos h]
      exact_mod_cast le_refl (0 : ℚ)
    · rw [if_neg h]
      exact le_top
  · intro v hv hnv
    exact absurd hv hnv
  · intro v hv
    by_cases h : v = startId
    · exact ⟨h ▸ hs, Or.inl h⟩
    · rw [if_neg h] at hv
      exact absurd rfl hv
  · intro p hp hnp
    exact absurd hp hnp

/-- Soundness of `dijkstra`: a nonempty result is a path of graph edges
from the start node to the target. -/
theorem dijkstra_sound (g : GraphState) (startId endId : String)
    (hw : ∀ a b, 0 < getEdgeWeight g a b) (hids : NodupIds g)
    (hs : startId ∈ nodeIds g) (he : endId ∈ nodeIds g)
    (hne : dijkstra g startId endId ≠ []) :
    (dijkstra g startId endId).head? = some startId ∧
    (dijkstra g startId endId).getLast? = some endId ∧
    (dijkstra g startId endId).Chain' (adjacent g) := by
  have h := (dijkstraLoop_spec g startId endId hw (nodeIds g).length (nodeIds g)
    (fun v => if v = startId then ((0 : ℚ) : WithTop ℚ) else ⊤) (fun _ => none)
    (nodeIds g).length (dijkstra_init_inv g startId endId hids hs he)
    (le_refl _) (le_refl _)).1 hne
  exact ⟨h.1, h.2.1, h.2.2.1⟩

/-- Completeness of `dijkstra`: a reachable target yields a nonempty
result. -/
theorem dijkstra_complete (g : GraphState) (startId endId : String)
    (hw : ∀ a b, 0 < getEdgeWeight g a b) (hids : NodupIds g)
    (hs : startId ∈ nodeIds g) (he : endId ∈ nodeIds g)
    (hr : ReachableAdj g startId endId) :
    dijkstra g startId endId ≠ [] := by
  refine (dijkstraLoop_spec g startId endId hw (nodeIds g).length (nodeIds g)
    (fun v => if v = startId then ((0 : ℚ) : WithTop ℚ) else ⊤) (fun _ => none)
    (nodeIds g).length (dijkstra_init_inv g startId endId hids hs he)
    (le_refl _) (le_refl _)).2 ⟨startId, hr, Or.inr ⟨hs, ?_⟩⟩
  rw [if_pos rfl]
  exact WithTop.coe_ne_top

/-- A `Chain'` of adjacencies from `a` to `b` yields reachability. -/
theorem chain_head_getLast_reachable (g : GraphState) :
    ∀ (l : List String) (a b : String), l.Chain' (adjacent g) →
      l.head? = some a → l.getLast? = some b → ReachableAdj g a b := by
  intro l
  induction l with
  | nil => intro a b _ h; exact absurd h (by simp)
  | cons x rest ih =>
    intro a b hch hh hl
    have hx : x = a := by simpa using hh
    subst hx
    cases rest with
    | nil =>
      have hb : x = b := by simpa using hl
      subst hb
      exact Relation.ReflTransGen.refl
    | cons y rest' =>
      have hxy : adjacent g x y := (List.chain'_cons.mp hch).1
      have hrest := (List.chain'_cons.mp hch).2
      have hl' : (y :: rest').getLast? = some b := by
        rw [← hl]
        rfl
      exact Relation.ReflTransGen.head hxy (ih y b hrest rfl hl')

/-- A stored relationship of any pair comes from the relationship store. -/
theorem relsOf_subset (g : GraphState) (a b : String) (r : Relationship)
    (h : r ∈ relsOf g a b) : ∃ e ∈ g.relationships, r ∈ e.2 := by
  unfold relsOf at h
  cases hf : g.relationships.find? (fun e => e.1 = a ++ "-" ++ b) with
  | none => rw [hf] at h; simp at h
  | some e =>
    rw [hf] at h
    simp at h
    exact ⟨e, List.mem_of_find?_eq_some hf, h⟩

/-- Under positive stored strengths every Dijkstra edge weight is
positive. -/
theorem getEdgeWeight_pos (g : GraphState) (hpos : StrengthsPos g) (a b : String) :
    0 < getEdgeWeight g a b := by
  unfold getEdgeWeight
  cases hr : relsOf g a b with
  | nil => norm_num
  | cons r rest =>
    have hmem : r ∈ relsOf g a b := by rw [hr]; exact List.mem_cons_self _ _
    obtain ⟨e, he, hre⟩ := relsOf_subset g a b r hmem
    have h := hpos e he r hre
    show 0 < 1 / (if r.strength = 0 then 0.5 else r.strength)
    rw [if_neg (ne_of_gt h)]
    positivity

/-- Under positive stored strengths every per-edge confidence strength is
positive. -/
theorem edgeStrength_pos (g : GraphState) (hpos : StrengthsPos g) (a b : String) :
    0 < edgeStrength g a b := by
  unfold edgeStrength
  cases hr : relsOf g a b with
  | nil => norm_num
  | cons r rest =>
    have hmem : r ∈ relsOf g a b := by rw [hr]; exact List.mem_cons_self _ _
    obtain ⟨e, he, hre⟩ := relsOf_subset g a b r hmem
    have h := hpos e he r hre
    show 0 < (if r.strength = 0 then 0.5 else r.strength)
    rw [if_neg (ne_of_gt h)]
    exact h

/-- Strength sums are nonnegative under positive stored strengths. -/
theorem strengthSum_nonneg (g : GraphState) (hpos : StrengthsPos g) :
    ∀ p, 0 ≤ strengthSum g p := by
  intro p
  induction p with
  | nil => exact le_refl 0
  | cons a rest ih =>
    cases rest with
    | nil => exact le_refl 0
    | cons b rest' =>
      show 0 ≤ edgeStrength g a b + strengthSum g (b :: rest')
      exact add_nonneg (le_of_lt (edgeStrength_pos g hpos a b)) ih

/-- Under positive stored strengths every path confidence is positive. -/
theorem calculatePathConfidence_pos (g : GraphState) (hpos : StrengthsPos g)
    (p : List String) : 0 < calculatePathConfidence g p := by
  unfold calculatePathConfidence
  by_cases h : p.length ≤ 1
  · rw [if_pos h]; norm_num
  · rw [if_neg h]
    push_neg at h
    match p, h with
    | a :: b :: rest, _ =>
      refine div_pos ?_ ?_
      · show 0 < edgeStrength g a b + strengthSum g (b :: rest)
        exact add_pos_of_pos_of_nonneg (edgeStrength_pos g hpos a b)
          (strengthSum_nonneg g hpos _)
      · have : ((a :: b :: rest).length : ℚ) = rest.length + 2 := by
          push_cast [List.length_cons]
          ring
        rw [this]
        have h0 : (0 : ℚ) ≤ rest.length := by positivity
        linarith

/-- What a successful `findNode` guarantees: membership, exact type and
exact name. -/
theorem findNode_spec (g : GraphState) (name : String) (ty : NodeType)
    (n : GraphNode) (h : findNode g name ty = some n) :
    n ∈ g.nodes ∧ n.type = ty ∧ n.properties.name = name := by
  unfold findNode at h
  have hmem := List.mem_of_find?_eq_some h
  have hp := List.find?_some h
  simp at hp
  exact ⟨hmem, hp.1, hp.2⟩

/-- A found node's id is a node key. -/
theorem findNode_mem_nodeIds (g : GraphState) (name : String) (ty : NodeType)
    (n : GraphNode) (h : findNode g name ty = some n) : n.id ∈ nodeIds g :=
  List.mem_map_of_mem (·.id) (findNode_spec g name ty n h).1

/-- Distinct node ids determine nodes uniquely. -/
theorem nodup_id_inj (g : GraphState) (hids : NodupIds g) (a b : GraphNode)
    (ha : a ∈ g.nodes) (hb : b ∈ g.nodes) (h : a.id = b.id) : a = b :=
  List.inj_on_of_nodup_map hids ha hb h

/-- Characterization of the per-skill loop of `findShortestPath`: either
no candidate improves on the incoming accumulator (which is returned
unchanged, and every nonempty candidate's confidence is bounded by its
`maxConfidence`), or the loop returns the state of a nonempty candidate
of maximal confidence that strictly improves on the accumulator. -/
theorem considerSkill_foldl_spec (g : GraphState) (fromSkills : List String)
    (targetId : String) :
    ∀ (skills : List String) (st : FoldState),
      (skills.foldl (considerSkill g fromSkills targetId) st = st ∧
        ∀ p ∈ candidatePaths g skills targetId, p ≠ [] →
          calculatePathConfidence g p ≤ st.maxConfidence) ∨
      (∃ p ∈ candidatePaths g skills targetId, p ≠ [] ∧
        skills.foldl (considerSkill g fromSkills targetId) st =
          ⟨p.map (getNodeD g), extractGaps fromSkills (p.map (getNodeD g)),
            calculatePathConfidence g p⟩ ∧
        st.maxConfidence < calculatePathConfidence g p ∧
        ∀ q ∈ candidatePaths g skills targetId, q ≠ [] →
          calculatePathConfidence g q ≤ calculatePathConfidence g p) := by
  intro skills
  induction skills with
  | nil =>
    intro st
    exact Or.inl ⟨rfl, by simp [candidatePaths]⟩
  | cons s rest ih =>
    intro st
    rw [List.foldl_cons]
    cases hfn : findNode g s .skill with
    | none =>
      have hcand : candidatePaths g (s :: rest) targetId =
          candidatePaths g rest targetId := by
        simp [candidatePaths, hfn]
      have hstep : considerSkill g fromSkills targetId st s = st := by
        rw [considerSkill, hfn]
      rw [hstep, hcand]
      exact ih st
    | some sn =>
      have hcand : candidatePaths g (s :: rest) targetId =
          dijkstra g sn.id targetId :: candidatePaths g rest targetId := by
        simp [candidatePaths, hfn]
      rw [hcand]
      by_cases hlen : (dijkstra g sn.id targetId).length > 0
      · by_cases hconf : calculatePathConfidence g (dijkstra g sn.id targetId) >
            st.maxConfidence
        · have hstep : considerSkill g fromSkills targetId st s =
              ⟨(dijkstra g sn.id targetId).map (getNodeD g),
                extractGaps fromSkills
                  ((dijkstra g sn.id targetId).map (getNodeD g)),
                calculatePathConfidence g (dijkstra g sn.id targetId)⟩ := by
            simp only [considerSkill, hfn]
            rw [if_pos hlen, if_pos hconf]
          rw [hstep]
          have hp0ne : dijkstra g sn.id targetId ≠ [] := by
            intro h
            rw [h] at hlen
            simp at hlen
          rcases ih ⟨(dijkstra g sn.id targetId).map (getNodeD g),
              extractGaps fromSkills ((dijkstra g sn.id targetId).map (getNodeD g)),
              calculatePathConfidence g (dijkstra g sn.id targetId)⟩ with
            ⟨heq, hall⟩ | ⟨p, hmem, hne, heq, hlt, hmax⟩
          · refine Or.inr ⟨dijkstra g sn.id targetId, List.mem_cons_self _ _,
              hp0ne, heq, hconf, ?_⟩
            intro q hq hqne
            rcases List.mem_cons.mp hq with rfl | hq'
            · exact le_refl _
            · exact hall q hq' hqne
          · refine Or.inr ⟨p, List.mem_cons_of_mem _ hmem, hne, heq,
              lt_trans hconf hlt, ?_⟩
            intro q hq hqne
            rcases List.mem_cons.mp hq with rfl | hq'
            · exact le_of_lt hlt
            · exact hmax q hq' hqne
        · have hstep : considerSkill g fromSkills targetId st s = st := by
            simp only [considerSkill, hfn]
            rw [if_pos hlen, if_neg hconf]
          rw [hstep]
          push_neg at hconf
          rcases ih st with ⟨heq, hall⟩ | ⟨p, hmem, hne, heq, hlt, hmax⟩
          · refine Or.inl ⟨heq, ?_⟩
            intro q hq hqne
            rcases List.mem_cons.mp hq with rfl | hq'
            · exact hconf
            · exact hall q hq' hqne
          · refine Or.inr ⟨p, List.mem_cons_of_mem _ hmem, hne, heq, hlt, ?_⟩
            intro q hq hqne
            rcases List.mem_cons.mp hq with rfl | hq'
            · exact le_trans hconf (le_of_lt hlt)
            · exact hmax q hq' hqne
      · have hp0nil : dijkstra g sn.id targetId = [] := by
          rcases hd : dijkstra g sn.id targetId with - | ⟨x, xs⟩
          · rfl
          · rw [hd] at hlen
            simp at hlen
        have hstep : considerSkill g fromSkills targetId st s = st := by
          simp only [considerSkill, hfn]
          rw [if_neg hlen]
        rw [hstep]
        rcases ih st with ⟨heq, hall⟩ | ⟨p, hmem, hne, heq, hlt, hmax⟩
        · refine Or.inl ⟨heq, ?_⟩
          intro q hq hqne
          rcases List.mem_cons.mp hq with rfl | hq'
          · exact absurd hp0nil hqne
          · exact hall q hq' hqne
        · refine Or.inr ⟨p, List.mem_cons_of_mem _ hmem, hne, heq, hlt, ?_⟩
          intro q hq hqne
          rcases List.mem_cons.mp hq with rfl | hq'
          · exact absurd hp0nil hqne
          · exact hmax q hq' hqne

/-- `findShortestPath` through the fold result: either the fallback
(empty best path) or the kept best candidate. -/
theorem findShortestPath_of_fold (g : GraphState) (fromSkills : List String)
    (toRole : String) (target : GraphNode)
    (htarget : findNode g toRole .role = some target) (st : FoldState)
    (hfold : fromSkills.foldl (considerSkill g fromSkills target.id) ⟨[], [], 0⟩ = st) :
    findShortestPath g fromSkills toRole =
      if st.bestPath.length = 0 then
        .ok { path := []
              skillGaps := (getRequiredSkillsForRole toRole).take 3
              confidence := 0.6 }
      else
        .ok { path := st.bestPath
              skillGaps := st.skillGaps.take 3
              confidence := st.maxConfidence } := by
  simp only [findShortestPath, htarget]
  rw [hfold]

/-- Under strengths in `(0, 1]` every Dijkstra edge weight is at least
`1`. -/
theorem getEdgeWeight_ge_one (g : GraphState) (hunit : StrengthsInUnit g)
    (a b : String) : 1 ≤ getEdgeWeight g a b := by
  unfold getEdgeWeight
  cases hr : relsOf g a b with
  | nil => norm_num
  | cons r rest =>
    have hmem : r ∈ relsOf g a b := by rw [hr]; exact List.mem_cons_self _ _
    obtain ⟨e, he, hre⟩ := relsOf_subset g a b r hmem
    obtain ⟨h1, h2⟩ := hunit e he r hre
    show 1 ≤ 1 / (if r.strength = 0 then 0.5 else r.strength)
    rw [if_neg (ne_of_gt h1), one_le_div h1]
    exact h2

/-- When every edge weight is at least `1`, a path's total weight is at
least its edge count. -/
theorem pathWeight_ge_edges (g : GraphState)
    (hge : ∀ a b, 1 ≤ getEdgeWeight g a b) :
    ∀ p : List String, ((p.length : ℚ) - 1) ≤ pathWeight g p := by
  intro p
  induction p with
  | nil =>
    show ((0 : ℚ) - 1) ≤ 0
    norm_num
  | cons a rest ih =>
    cases rest with
    | nil =>
      show (((1 : ℕ) : ℚ) - 1) ≤ 0
      norm_num
    | cons b rest' =>
      show ((a :: b :: rest').length : ℚ) - 1 ≤
        getEdgeWeight g a b + pathWeight g (b :: rest')
      have h1 := hge a b
      have hlen : ((a :: b :: rest').length : ℚ) =
          ((b :: rest').length : ℚ) + 1 := by
        push_cast [List.length_cons]
        ring
      rw [hlen]
      linarith

/-- With a direct edge from start to target, the weight of the returned
Dijkstra path never exceeds the direct edge's weight (the target's
tentative distance is at most it after the very first relaxation and
distances only decrease). -/
theorem dijkstra_weight_le_direct (g : GraphState) (startId endId : String)
    (hw : ∀ a b, 0 < getEdgeWeight g a b) (hids : NodupIds g)
    (hs : startId ∈ nodeIds g) (he : endId ∈ nodeIds g)
    (hneq : startId ≠ endId) (hedge : endId ∈ edgesOf g startId)
    (hne : dijkstra g startId endId ≠ []) :
    pathWeight g (dijkstra g startId endId) ≤ getEdgeWeight g startId endId := by
  have inv₀ := dijkstra_init_inv g startId endId hids hs he
  rcases hng : nodeIds g with - | ⟨a, t⟩
  · rw [hng] at hs
    exact absurd hs (List.not_mem_nil _)
  · rw [hng] at inv₀
    have hsel : selectMin
        (fun v => if v = startId then ((0 : ℚ) : WithTop ℚ) else ⊤) (a :: t) =
        (some startId, ((0 : ℚ) : WithTop ℚ)) :=
      selectMin_unique_start _ startId (if_pos rfl) (fun v hv => if_neg hv)
        (a :: t) (none, ⊤) (Or.inl ⟨rfl, hng ▸ hs⟩)
    have heq1 : dijkstra g startId endId =
        dijkstraLoop g endId t.length ((a :: t).erase startId)
          (relaxAll g startId ((0 : ℚ) : WithTop ℚ) (edgesOf g startId)
            ((a :: t).erase startId)
            ((fun v => if v = startId then ((0 : ℚ) : WithTop ℚ) else ⊤),
             (fun _ => none))).1
          (relaxAll g startId ((0 : ℚ) : WithTop ℚ) (edgesOf g startId)
            ((a :: t).erase startId)
            ((fun v => if v = startId then ((0 : ℚ) : WithTop ℚ) else ⊤),
             (fun _ => none))).2
          (t.length + 1) := by
      show dijkstraLoop g endId (nodeIds g).length (nodeIds g)
          (fun v => if v = startId then ((0 : ℚ) : WithTop ℚ) else ⊤)
          (fun _ => none) (nodeIds g).length = _
      rw [hng, List.length_cons, dijkstraLoop_cons, hsel]
      show (if ((0 : ℚ) : WithTop ℚ) = ⊤ then []
        else if startId = endId then
          reconstructPath (fun _ => none) (t.length + 1) endId
        else
          dijkstraLoop g endId t.length ((a :: t).erase startId)
            (relaxAll g startId ((0 : ℚ) : WithTop ℚ) (edgesOf g startId)
              ((a :: t).erase startId)
              ((fun v => if v = startId then ((0 : ℚ) : WithTop ℚ) else ⊤),
               (fun _ => none))).1
            (relaxAll g startId ((0 : ℚ) : WithTop ℚ) (edgesOf g startId)
              ((a :: t).erase startId)
              ((fun v => if v = startId then ((0 : ℚ) : WithTop ℚ) else ⊤),
               (fun _ => none))).2
            (t.length + 1)) = _
      rw [if_neg (WithTop.coe_ne_top), if_neg hneq]
    rw [heq1] at hne ⊢
    have hsmem : startId ∈ (a :: t) := hng ▸ hs
    have hemem' : endId ∈ (a :: t).erase startId := by
      rw [inv₀.nodupU.mem_erase_iff]
      exact ⟨fun h => hneq h.symm, hng ▸ he⟩
    have inv' := dijkstra_step_inv g startId endId hw (a :: t) _ _ inv₀
      startId ((0 : ℚ) : WithTop ℚ) hsel hneq
    have hlen' : ((a :: t).erase startId).length ≤ t.length := by
      rw [List.length_erase_of_mem hsmem]
      simp
    have hrf' : (nodeIds g).length ≤ t.length + 1 := by
      rw [hng]
      simp
    have hloop := (dijkstraLoop_spec g startId endId hw t.length
      ((a :: t).erase startId)
      (relaxAll g startId ((0 : ℚ) : WithTop ℚ) (edgesOf g startId)
        ((a :: t).erase startId)
        ((fun v => if v = startId then ((0 : ℚ) : WithTop ℚ) else ⊤),
         (fun _ => none))).1
      (relaxAll g startId ((0 : ℚ) : WithTop ℚ) (edgesOf g startId)
        ((a :: t).erase startId)
        ((fun v => if v = startId then ((0 : ℚ) : WithTop ℚ) else ⊤),
         (fun _ => none))).2
      (t.length + 1) inv' hlen' hrf').1 hne
    have hbound := relaxAll_bound g startId ((0 : ℚ) : WithTop ℚ)
      ((a :: t).erase startId) (edgesOf g startId)
      ((fun v => if v = startId then ((0 : ℚ) : WithTop ℚ) else ⊤),
       (fun _ => none)) endId hedge hemem'
    have hfinal := le_trans hloop.2.2.2 hbound
    have hz : (((0 : ℚ) : WithTop ℚ) +
        ((getEdgeWeight g startId endId : ℚ) : WithTop ℚ)) =
        ((getEdgeWeight g startId endId : ℚ) : WithTop ℚ) := by
      rw [← WithTop.coe_add]
      norm_num
    rw [hz] at hfinal
    exact_mod_cast hfinal

/-- Claim C2: when the target role resolves and at least one known skill
resolves to a node from which the role's node is reachable,
`findShortestPath` succeeds and returns the candidate path (one Dijkstra
path per resolving known-skill origin) whose average edge strength —
`calculatePathConfidence`, the mean of the per-edge strengths along the
path — is maximal among the nonempty candidates across all origins, and
the result's `confidence` equals exactly that path's average edge
strength. -/
theorem c2_returns_best_average_strength_candidate
    (g : GraphState) (fromSkills : List String) (toRole : String)
    (hids : NodupIds g) (hpos : StrengthsPos g)
    (target : GraphNode) (htarget : findNode g toRole .role = some target)
    (s : String) (hs : s ∈ fromSkills) (sn : GraphNode)
    (hsn : findNode g s .skill = some sn)
    (hreach : ReachableAdj g sn.id target.id) :
    ∃ p ∈ candidatePaths g fromSkills target.id, p ≠ [] ∧
      findShortestPath g fromSkills toRole =
        .ok { path := p.map (getNodeD g)
              skillGaps := (extractGaps fromSkills (p.map (getNodeD g))).take 3
              confidence := calculatePathConfidence g p } ∧
      ∀ q ∈ candidatePaths g fromSkills target.id, q ≠ [] →
        calculatePathConfidence g q ≤ calculatePathConfidence g p := by
  have hw := getEdgeWeight_pos g hpos
  have hsids := findNode_mem_nodeIds g s .skill sn hsn
  have htids := findNode_mem_nodeIds g toRole .role target htarget
  have hstar_ne : dijkstra g sn.id target.id ≠ [] :=
    dijkstra_complete g sn.id target.id hw hids hsids htids hreach
  have hstar_mem : dijkstra g sn.id target.id ∈
      candidatePaths g fromSkills target.id :=
    List.mem_filterMap.mpr ⟨s, hs, by rw [hsn]; rfl⟩
  have hstar_pos : 0 < calculatePathConfidence g (dijkstra g sn.id target.id) :=
    calculatePathConfidence_pos g hpos _
  rcases considerSkill_foldl_spec g fromSkills target.id fromSkills ⟨[], [], 0⟩ with
    ⟨-, hall⟩ | ⟨p, hmem, hne, heq, -, hmax⟩
  · exact absurd (hall _ hstar_mem hstar_ne) (not_le.mpr hstar_pos)
  · refine ⟨p, hmem, hne, ?_, hmax⟩
    rw [findShortestPath_of_fold g fromSkills toRole target htarget _ heq,
      if_neg (by simp [hne])]

/-- Concrete instance of claim C2: on the two-node graph with the single
strength-`0.9` required-for edge, the known skill `"X"` resolves,
reaches the role node, and the returned best-average-strength candidate
carries the result's confidence. -/
theorem c2_witness :
    ∃ p ∈ candidatePaths directEdge09Graph ["X"] "role-r", p ≠ [] ∧
      findShortestPath directEdge09Graph ["X"] "R" =
        .ok { path := p.map (getNodeD directEdge09Graph)
              skillGaps :=
                (extractGaps ["X"] (p.map (getNodeD directEdge09Graph))).take 3
              confidence := calculatePathConfidence directEdge09Graph p } ∧
      ∀ q ∈ candidatePaths directEdge09Graph ["X"] "role-r", q ≠ [] →
        calculatePathConfidence directEdge09Graph q ≤
          calculatePathConfidence directEdge09Graph p :=
  c2_returns_best_average_strength_candidate directEdge09Graph ["X"] "R"
    (by unfold NodupIds; decide) (by unfold StrengthsPos; decide)
    ⟨"role-r", .role, .roleProps ⟨"R", "Operations", "high", 50000, "role"⟩⟩
    (by decide) "X" (by decide)
    ⟨"skill-x", .skill, .skillProps ⟨"X", "Technology", "beginner", 20⟩⟩
    (by decide)
    (Relation.ReflTransGen.single ⟨by decide, by decide, by decide⟩)

/-- Claim C7: when the target role name does not resolve to a node the
call fails with the role-not-found error; and when the role resolves but
no resolving known skill reaches its node (in particular when the known
skill list is empty), the call falls back to the static
required-skills-for-role table with confidence exactly `0.6`. -/
theorem c7_fallback_and_unknown_role (g : GraphState) (fromSkills : List String)
    (toRole : String) :
    (findNode g toRole .role = none →
      findShortestPath g fromSkills toRole =
        .error ("Role \"" ++ toRole ++ "\" not found")) ∧
    (NodupIds g → StrengthsPos g →
      ∀ target, findNode g toRole .role = some target →
      (∀ s ∈ fromSkills, ∀ sn, findNode g s .skill = some sn →
        ¬ ReachableAdj g sn.id target.id) →
      findShortestPath g fromSkills toRole =
        .ok { path := []
              skillGaps := (getRequiredSkillsForRole toRole).take 3
              confidence := 0.6 }) := by
  constructor
  · intro h
    simp only [findShortestPath, h]
  · intro hids hpos target htarget hnone
    have hallnil : ∀ p ∈ candidatePaths g fromSkills target.id, p = [] := by
      intro p hp
      rcases List.mem_filterMap.mp hp with ⟨s, hs, hf⟩
      cases hsn : findNode g s .skill with
      | none => rw [hsn] at hf; simp at hf
      | some sn =>
        rw [hsn] at hf
        simp at hf
        subst hf
        by_contra hpne
        have hsound := dijkstra_sound g sn.id target.id (getEdgeWeight_pos g hpos)
          hids (findNode_mem_nodeIds g s .skill sn hsn)
          (findNode_mem_nodeIds g toRole .role target htarget) hpne
        exact hnone s hs sn hsn
          (chain_head_getLast_reachable g _ _ _ hsound.2.2 hsound.1 hsound.2.1)
    rcases considerSkill_foldl_spec g fromSkills target.id fromSkills ⟨[], [], 0⟩ with
      ⟨heq, -⟩ | ⟨p, hmem, hne, -, -, -⟩
    · rw [findShortestPath_of_fold g fromSkills toRole target htarget _ heq]
      rfl
    · exact absurd (hallnil p hmem) hne

/-- Concrete instance of claim C7 on the seeded database: the empty
known-skill list takes the fallback for the operations-analyst role, and
an unknown role name produces the role-not-found error. -/
theorem c7_witness :
    findShortestPath seedGraph [] "AI-Enhanced Operations Analyst" =
      .ok { path := []
            skillGaps :=
              (getRequiredSkillsForRole "AI-Enhanced Operations Analyst").take 3
            confidence := 0.6 } ∧
    findShortestPath seedGraph ["Project Management"] "No Such Role" =
      .error "Role \"No Such Role\" not found" := by
  constructor
  · exact (c7_fallback_and_unknown_role seedGraph [] "AI-Enhanced Operations Analyst").2
      (by unfold NodupIds; decide) (by unfold StrengthsPos; decide)
      ((findNode seedGraph "AI-Enhanced Operations Analyst" .role).getD
        ⟨"", .role, .roleProps ⟨"", "", "", 0, ""⟩⟩)
      (by decide) (by simp)
  · exact (c7_fallback_and_unknown_role seedGraph ["Project Management"]
      "No Such Role").1 (by decide)

/-- Claim C8 (counterexample): on the two-node graph whose only known
skill has a direct required-for edge of strength `0.6` to the target
role, the returned confidence is exactly `0.6` — not strictly greater
than `0.6` as claimed. -/
theorem c8_counterexample_direct_edge_at_06 :
    relsOf directEdge06Graph "skill-x" "role-r" =
      [{ type := "REQUIRED_FOR", strength := 0.6, priority := "core" }] ∧
    "role-r" ∈ edgesOf directEdge06Graph "skill-x" ∧
    findNode directEdge06Graph "X" .skill =
      some ⟨"skill-x", .skill, .skillProps ⟨"X", "Technology", "beginner", 20⟩⟩ ∧
    findNode directEdge06Graph "R" .role =
      some ⟨"role-r", .role, .roleProps ⟨"R", "Operations", "high", 50000, "role"⟩⟩ ∧
    confidenceOfResult (findShortestPath directEdge06Graph ["X"] "R") = 3 / 5 ∧
    ¬ 3 / 5 < confidenceOfResult (findShortestPath directEdge06Graph ["X"] "R") := by
  refine ⟨by decide, by decide, by decide, by decide, by decide, by decide⟩

/-- Claim C8 (amended): with strengths in `(0, 1]`, a resolvable target
role and a known skill whose node has a direct edge to the role's node
whose **first stored** relationship is a required-for edge of strength
strictly above `0.6`, the call succeeds and the returned confidence is
strictly greater than `0.6`. -/
theorem c8_confidence_above_06_with_strong_direct_edge
    (g : GraphState) (fromSkills : List String) (toRole : String)
    (hids : NodupIds g) (hunit : StrengthsInUnit g)
    (target : GraphNode) (htarget : findNode g toRole .role = some target)
    (s : String) (hs : s ∈ fromSkills) (sn : GraphNode)
    (hsn : findNode g s .skill = some sn)
    (hedge : target.id ∈ edgesOf g sn.id)
    (r : Relationship) (hrel : (relsOf g sn.id target.id).head? = some r)
    (_hty : r.type = "REQUIRED_FOR")
    (hstr : 3 / 5 < r.strength) :
    (∃ pr, findShortestPath g fromSkills toRole = .ok pr) ∧
    3 / 5 < confidenceOfResult (findShortestPath g fromSkills toRole) := by
  have hpos : StrengthsPos g := fun e he r' hr' => (hunit e he r' hr').1
  have hw := getEdgeWeight_pos g hpos
  have hsids := findNode_mem_nodeIds g s .skill sn hsn
  have htids := findNode_mem_nodeIds g toRole .role target htarget
  obtain ⟨hsnmem, hsnty, -⟩ := findNode_spec g s .skill sn hsn
  obtain ⟨htmem, htty, -⟩ := findNode_spec g toRole .role target htarget
  have hneq : sn.id ≠ target.id := by
    intro h
    have heqn := nodup_id_inj g hids sn target hsnmem htmem h
    rw [heqn] at hsnty
    rw [htty] at hsnty
    exact absurd hsnty (by decide)
  have hadj : adjacent g sn.id target.id := ⟨hsids, htids, hedge⟩
  have hne := dijkstra_complete g sn.id target.id hw hids hsids htids
    (Relation.ReflTransGen.single hadj)
  obtain ⟨rest, hrv⟩ : ∃ rest, relsOf g sn.id target.id = r :: rest := by
    cases hrv : relsOf g sn.id target.id with
    | nil => rw [hrv] at hrel; simp at hrel
    | cons r' rest =>
      rw [hrv] at hrel
      simp at hrel
      exact ⟨rest, by rw [hrel]⟩
  have hrpos : 0 < r.strength := lt_trans (by norm_num) hstr
  have hwdir : getEdgeWeight g sn.id target.id = 1 / r.strength := by
    unfold getEdgeWeight
    rw [hrv]
    show 1 / (if r.strength = 0 then 0.5 else r.strength) = 1 / r.strength
    rw [if_neg (ne_of_gt hrpos)]
  have hesdir : edgeStrength g sn.id target.id = r.strength := by
    unfold edgeStrength
    rw [hrv]
    show (if r.strength = 0 then 0.5 else r.strength) = r.strength
    rw [if_neg (ne_of_gt hrpos)]
  have hwle := dijkstra_weight_le_direct g sn.id target.id hw hids hsids htids
    hneq hedge hne
  rw [hwdir] at hwle
  have hlb := pathWeight_ge_edges g (getEdgeWeight_ge_one g hunit)
    (dijkstra g sn.id target.id)
  have hwlt : (1 : ℚ) / r.strength < 5 / 3 := by
    rw [div_lt_iff₀ hrpos]
    linarith
  obtain ⟨hhead, hlast, -⟩ := dijkstra_sound g sn.id target.id hw hids hsids
    htids hne
  have hlen2 : (dijkstra g sn.id target.id).length = 2 := by
    have hub : ((dijkstra g sn.id target.id).length : ℚ) - 1 < 5 / 3 :=
      lt_of_le_of_lt (le_trans hlb hwle) hwlt
    have hlenge1 : 1 ≤ (dijkstra g sn.id target.id).length := by
      cases hd : dijkstra g sn.id target.id with
      | nil => exact absurd hd hne
      | cons z zs => exact Nat.succ_le_succ (Nat.zero_le _)
    have hlenne1 : (dijkstra g sn.id target.id).length ≠ 1 := by
      intro h1
      obtain ⟨z, hz⟩ := List.length_eq_one.mp h1
      rw [hz] at hhead hlast
      have h1' : z = sn.id := by simpa using hhead
      have h2' : z = target.id := by simpa using hlast
      exact hneq (h1' ▸ h2')
    have hlenle : (dijkstra g sn.id target.id).length ≤ 2 := by
      by_contra hgt
      push_neg at hgt
      have h3 : (3 : ℚ) ≤ ((dijkstra g sn.id target.id).length : ℚ) := by
        exact_mod_cast hgt
      linarith
    omega
  obtain ⟨x, y, hxy⟩ := List.length_eq_two.mp hlen2
  rw [hxy] at hhead hlast
  have hx : x = sn.id := by simpa using hhead
  have hy : y = target.id := by simpa using hlast
  subst hx
  subst hy
  have hconf : calculatePathConfidence g (dijkstra g sn.id target.id) =
      r.strength := by
    rw [hxy]
    norm_num [calculatePathConfidence, strengthSum, hesdir]
  have hstar_mem : dijkstra g sn.id target.id ∈
      candidatePaths g fromSkills target.id :=
    List.mem_filterMap.mpr ⟨s, hs, by rw [hsn]; rfl⟩
  rcases considerSkill_foldl_spec g fromSkills target.id fromSkills ⟨[], [], 0⟩ with
    ⟨-, hall⟩ | ⟨p, hmem, hpne, heq, -, hmax⟩
  · have hle0 := hall _ hstar_mem hne
    rw [hconf] at hle0
    exact absurd hle0 (not_le.mpr hrpos)
  · have hres := findShortestPath_of_fold g fromSkills toRole target htarget _ heq
    rw [if_neg (by simp [hpne])] at hres
    refine ⟨⟨_, hres⟩, ?_⟩
    rw [hres]
    show 3 / 5 < calculatePathConfidence g p
    have hle := hmax _ hstar_mem hne
    rw [hconf] at hle
    exact lt_of_lt_of_le hstr hle

/-- Concrete instance of the amended claim C8: on the two-node graph
with the strength-`0.9` required-for edge the call succeeds with
confidence `0.9 > 0.6`. -/
theorem c8_witness :
    (∃ pr, findShortestPath directEdge09Graph ["X"] "R" = .ok pr) ∧
    3 / 5 < confidenceOfResult (findShortestPath directEdge09Graph ["X"] "R") :=
  c8_confidence_above_06_with_strong_direct_edge directEdge09Graph ["X"] "R"
    (by unfold NodupIds; decide) (by unfold StrengthsInUnit; decide)
    ⟨"role-r", .role, .roleProps ⟨"R", "Operations", "high", 50000, "role"⟩⟩
    (by decide) "X" (by decide)
    ⟨"skill-x", .skill, .skillProps ⟨"X", "Technology", "beginner", 20⟩⟩
    (by decide) (by decide)
    { type := "REQUIRED_FOR", strength := 0.9, priority := "core" }
    (by decide) rfl (by norm_num)
